import Mathlib

/-!
Shallow embedding of the `asg` crate (symbolic expression trees stored as a
flat, topologically ordered node vector) and proofs about its claims.

Modelling conventions:
* Rust `f64` constants are modelled by an abstract linearly ordered type `F`.
  The claims under verification only concern NaN-free trees, and for NaN-free
  doubles `partial_cmp` is the total order, so a `LinearOrder` is faithful.
  The numeric semantics of the operators (`UnaryOp::apply`, `BinaryOp::apply`,
  whose bodies are not under `src/`) are abstracted as an `OpSem` record of
  interpretation functions.
* Rust `Vec` indexing panics when out of bounds.  The embedding reads lists
  with `List.getD` and a default; every theorem that relies on an index being
  read carries the bounds/topology hypotheses under which the source never
  panics, so the default is never observable there.
* The 64-bit hashing primitive (`DefaultHasher`) is abstracted as a record
  `HashFns` of combiner functions, exactly mirroring which data is fed to the
  hasher at each node (`hash.rs::hash_nodes`, `dedup.rs::calc_hashes`).
-/

namespace Asg

/-- Unary operators, from `tree.rs` (`enum UnaryOp`). -/
inductive UnaryOp : Type
  | negate | sqrt | abs | sin | cos | tan | log | exp
  deriving DecidableEq, Repr

/-- Binary operators, from `tree.rs` (`enum BinaryOp`). -/
inductive BinaryOp : Type
  | add | subtract | multiply | divide | pow | min | max
  deriving DecidableEq, Repr

/-- Modelled from the spec: `BinaryOp::is_commutative` is called by
`dedup.rs` and `hash.rs` but its definition is not under `src/`; the spec
(§3) fixes the commutative set to {Add, Multiply, Min, Max}. -/
def BinaryOp.isCommutative : BinaryOp → Bool
  | .add | .multiply | .min | .max => true
  | _ => false

/-- Stable ordinal of a unary operator, from `helper.rs` (`UnaryOp::index`). -/
def UnaryOp.index : UnaryOp → Nat
  | .negate => 0 | .sqrt => 1 | .abs => 2 | .sin => 3
  | .cos => 4 | .tan => 5 | .log => 6 | .exp => 7

/-- Stable ordinal of a binary operator, from `helper.rs` (`BinaryOp::index`). -/
def BinaryOp.index : BinaryOp → Nat
  | .add => 0 | .subtract => 1 | .multiply => 2 | .divide => 3
  | .pow => 4 | .min => 5 | .max => 6

/-- Expression nodes, from `tree.rs` (`enum Node`).  `F` stands for `f64`. -/
inductive Node (F : Type) : Type
  | constant (value : F)
  | symbol (label : Char)
  | unary (op : UnaryOp) (input : Nat)
  | binary (op : BinaryOp) (lhs rhs : Nat)
  deriving DecidableEq, Repr

variable {F : Type} [LinearOrder F]

/-- Default used for out-of-bounds `getD` reads of node vectors (the source
panics there; all theorems carry hypotheses that keep reads in bounds). -/
def defaultNode : Node F := .symbol 'v'

/-- A `Tree` is its node vector (`tree.rs`: `struct Tree { nodes: Vec<Node> }`);
`Tree::new` wraps a single node with no validation. -/
def Tree.new (n : Node F) : List (Node F) := [n]

/-- The root index, from `tree.rs` (`Tree::root_index`): `len - 1`. -/
def rootIndex (nodes : List (Node F)) : Nat := nodes.length - 1

/-- Rebase a node's operand indices by `offset`, as the `extend` closure of
`Tree::binary_op` does while appending the right operand's nodes. -/
def shiftNode (offset : Nat) : Node F → Node F
  | .constant v => .constant v
  | .symbol c => .symbol c
  | .unary op i => .unary op (i + offset)
  | .binary op l r => .binary op (l + offset) (r + offset)

/-- `tree.rs` `Tree::binary_op`: append `other`'s nodes shifted by
`offset = self.len()`, then append `Binary(op, offset - 1, new_len - 1)`
(after the extend, `new_len = lhs.len + rhs.len`). -/
def binaryOp (lhs rhs : List (Node F)) (op : BinaryOp) : List (Node F) :=
  lhs ++ rhs.map (shiftNode lhs.length)
  ++ [.binary op (lhs.length - 1) (lhs.length + rhs.length - 1)]

/-- `tree.rs` `Tree::unary_op`: append `Unary(op, old_root_index)`. -/
def unaryOp (nodes : List (Node F)) (op : UnaryOp) : List (Node F) :=
  nodes ++ [.unary op (rootIndex nodes)]

/-- Check that a node placed at position `k` only references strictly earlier
positions (the topological-order invariant; it also implies the bounded-index
invariant because `k < len`). -/
def childOK (k : Nat) : Node F → Bool
  | .constant _ => true
  | .symbol _ => true
  | .unary _ i => i < k
  | .binary _ l r => l < k && r < k

/-- Topological-order check for the whole node vector. -/
def topoCheck (nodes : List (Node F)) : Bool :=
  (List.range nodes.length).all fun k => childOK k (nodes.getD k defaultNode)

/-- The global tree invariants (spec §3): non-empty and topologically ordered
(children strictly before parents, hence all indices in bounds); the root is
at the end by the `rootIndex` definition. -/
def isValid (nodes : List (Node F)) : Bool :=
  !nodes.isEmpty && topoCheck nodes

/-! ### Structural hashing (`hash.rs::hash_nodes`, `dedup.rs::calc_hashes`) -/

/-- Abstract hashing primitives: what `hash.rs` feeds the `DefaultHasher` at
each node shape.  `constant` models `value.to_bits()`, `symbol` models
`hash(label)`, `unaryComb op h` models `hash(op ∥ h)` and `binaryComb op a b`
models `hash(op ∥ a ∥ b)`. -/
structure HashFns (F : Type) : Type where
  constant : F → Nat
  symbol : Char → Nat
  unaryComb : UnaryOp → Nat → Nat
  binaryComb : BinaryOp → Nat → Nat → Nat

/-- Commutative canonicalization of the two child hashes, from `hash.rs`
lines 24-31: swap when the operator is commutative and `hash1 > hash2`. -/
def hashPair (op : BinaryOp) (h1 h2 : Nat) : Nat × Nat :=
  if op.isCommutative ∧ h1 > h2 then (h2, h1) else (h1, h2)

/-- Hash of one node given the buffer of already-computed hashes (the Rust
buffer is zero-initialized, so a read of a not-yet-written slot yields 0,
which `getD _ 0` reproduces). -/
def hashStep (hf : HashFns F) (buf : List Nat) : Node F → Nat
  | .constant v => hf.constant v
  | .symbol c => hf.symbol c
  | .unary op i => hf.unaryComb op (buf.getD i 0)
  | .binary op l r =>
    let p := hashPair op (buf.getD l 0) (buf.getD r 0)
    hf.binaryComb op p.1 p.2

/-- The forward pass of `hash_nodes` over the first `k` nodes. -/
def hashBufAux (hf : HashFns F) (nodes : List (Node F)) : Nat → List Nat
  | 0 => []
  | k + 1 =>
    let buf := hashBufAux hf nodes k
    buf ++ [hashStep hf buf (nodes.getD k defaultNode)]

/-- `hash.rs::hash_nodes`: the vector of per-node subtree hashes. -/
def hashNodes (hf : HashFns F) (nodes : List (Node F)) : List Nat :=
  hashBufAux hf nodes nodes.length

/-- `hash.rs` `Tree::hash`: the hash at the root index. -/
def treeHash (hf : HashFns F) (nodes : List (Node F)) : Nat :=
  (hashNodes hf nodes).getD (rootIndex nodes) 0

/-! ### Depth-first walker (`helper.rs::DepthWalker` / `DepthIterator`) -/

/-- Totalized three-way comparison `compareOfLessAndEq`, the composition of
Rust `partial_cmp` with the walker's `None => Ordering::Equal` fallback
(which only differs from `partial_cmp` on NaN constants, excluded here). -/
def cmp3 {A : Type} [LinearOrder A] (a b : A) : Ordering :=
  if a < b then .lt else if b < a then .gt else .eq

/-- Total order on nodes from `helper.rs` (`impl PartialOrd for Node`):
Constant < Symbol < Unary < Binary; within a variant by value, label, or
operator ordinal (children are deliberately not compared). -/
def compareNode : Node F → Node F → Ordering
  | .constant a, .constant b => cmp3 a b
  | .constant _, .symbol _ => .lt
  | .constant _, .unary _ _ => .lt
  | .constant _, .binary _ _ _ => .lt
  | .symbol _, .constant _ => .gt
  | .symbol a, .symbol b => cmp3 a.toNat b.toNat
  | .symbol _, .unary _ _ => .lt
  | .symbol _, .binary _ _ _ => .lt
  | .unary _ _, .constant _ => .gt
  | .unary _ _, .symbol _ => .gt
  | .unary o1 _, .unary o2 _ => cmp3 o1.index o2.index
  | .unary _ _, .binary _ _ _ => .lt
  | .binary _ _ _, .constant _ => .gt
  | .binary _ _ _, .symbol _ => .gt
  | .binary _ _ _, .unary _ _ => .gt
  | .binary o1 _ _, .binary o2 _ _ => cmp3 o1.index o2.index

/-- The walker's child orderings.  `original` is `NodeOrdering::Original`.
`deterministic` models `NodeOrdering::Deterministic` of `walk.rs`. -/
inductive NodeOrdering : Type
  | original | deterministic
  deriving DecidableEq

/-- The children of node `i` in the order the iterator will visit them
(`helper.rs::DepthIterator::next` pushes the array `[rhs, lhs]`, optionally
sorted by `sort_children`, and visits it back-to-front because the stack is
LIFO; `Original` therefore visits `lhs` first).

Modelled from the spec: `walk.rs::NodeOrdering::Deterministic`, used by
`dedup.rs::equivalent`, is not under `src/` (the in-src revision
`helper.rs::NodeOrdering::Sorted` sorts the children of every binary node by
node content).  The spec's equivalence semantics (§4.E: commutative children
are canonicalized, equivalence is exactly modulo commutativity of
{Add, Multiply, Min, Max}; §8 S3: Subtract/Divide/Pow mirrors are NOT
equivalent, matching the in-repo test `dedup.rs::recursive_compare`) requires
that only the children of commutative operators are sorted, by the §3 total
node ordering with ties kept stable, which is what this models. -/
def childrenVisit (nodes : List (Node F)) (ord : NodeOrdering) (i : Nat) : List Nat :=
  match nodes.getD i defaultNode with
  | .constant _ => []
  | .symbol _ => []
  | .unary _ j => [j]
  | .binary op l r =>
    match ord with
    | .original => [l, r]
    | .deterministic =>
      if op.isCommutative &&
          compareNode (nodes.getD r defaultNode) (nodes.getD l defaultNode) == .gt
      then [r, l] else [l, r]

/-- Fueled unfolding of the depth-first traversal from one root with
`unique = false` (every visit of a node yields it again): the node followed by
the full walks of its children in visit order.  The fuel only serves
termination in Lean; for a topologically ordered vector the indices strictly
decrease along the walk, so the fuel supplied by `walkFrom` never runs out
(the source iterator would not terminate on a cyclic vector). -/
def walkFromF (nodes : List (Node F)) (ord : NodeOrdering) : Nat → Nat → List Nat
  | 0, _ => []
  | f + 1, i => i :: ((childrenVisit nodes ord i).map (walkFromF nodes ord f)).flatten

/-- The depth-first multi-visit walk from `i` (`DepthWalker::walk_nodes` with
`unique = false`). -/
def walkFrom (nodes : List (Node F)) (ord : NodeOrdering) (i : Nat) : List Nat :=
  walkFromF nodes ord (i + 1) i

/-! ### Equivalence checker (`dedup.rs::equivalent`) -/

/-- Shape-only node comparison used by `equivalent` (constants by value,
symbols by label, unary/binary by operator; children are not compared). -/
def shapeEq : Node F → Node F → Bool
  | .constant v1, .constant v2 => v1 = v2
  | .symbol c1, .symbol c2 => c1 = c2
  | .unary op1 _, .unary op2 _ => op1 = op2
  | .binary op1 _ _, .binary op2 _ _ => op1 = op2
  | _, _ => false

/-- The lockstep loop of `dedup.rs::equivalent`, as a machine over the two
walkers' stacks.  Each iteration pops one frame from each side (a `next()`
call, which also pushes that node's children in Deterministic order); when
the two slices are the same object (`same`, modelling `std::ptr::eq`) and the
indices coincide, `skip_children` discards the freshly pushed children on
both sides; otherwise the node shapes are compared.  The fuel only serves
termination in Lean: every pushed child of a topologically ordered vector is
strictly below its parent, so the fuel supplied by `equivalent` suffices
(fuel exhaustion answers `false`; it is unreachable under the theorems'
hypotheses). -/
def eqStacksF (same : Bool) (lnodes rnodes : List (Node F)) :
    Nat → List Nat → List Nat → Bool
  | _, [], [] => true
  | _, [], _ :: _ => false
  | _, _ :: _, [] => false
  | 0, _ :: _, _ :: _ => false
  | f + 1, li :: ls, ri :: rs =>
    if same && li == ri then
      eqStacksF same lnodes rnodes f ls rs
    else
      shapeEq (lnodes.getD li defaultNode) (rnodes.getD ri defaultNode) &&
      eqStacksF same lnodes rnodes f
        (childrenVisit lnodes .deterministic li ++ ls)
        (childrenVisit rnodes .deterministic ri ++ rs)

/-- Termination measure for the lockstep machine: pushed children are
strictly smaller than their parent, so this strictly decreases. -/
def stackMeasure (s : List Nat) : Nat := (s.map (fun i => 3 ^ i)).sum

/-- `dedup.rs::equivalent`: compare the subtrees rooted at `left` and `right`
by zipping two Deterministic depth-first walks.  `same` models
`std::ptr::eq(lnodes, rnodes)` (true exactly when both sides walk the same
vector, as in `Deduplicater::run`). -/
def equivalent (left right : Nat) (lnodes rnodes : List (Node F)) (same : Bool) : Bool :=
  eqStacksF same lnodes rnodes (3 ^ left + 3 ^ right + 2) [left] [right]

/-! ### Deduplication (`dedup.rs::Deduplicater::run`) -/

/-- First index holding the same hash as position `i` — the value kept by the
`hash_to_index.entry(h).or_insert(i)` map after processing indices in
increasing order. -/
def firstIdx (hashes : List Nat) (i : Nat) : Nat :=
  hashes.findIdx fun h => h == hashes.getD i 0

/-- The merge table `indices` computed by `Deduplicater::run`: `indices[i]`
is the first earlier node with the same hash when the structural equivalence
check confirms the match, and `i` itself otherwise. -/
def dedupIndices (hf : HashFns F) (nodes : List (Node F)) : List Nat :=
  let hashes := hashNodes hf nodes
  (List.range nodes.length).map fun i =>
    let e := firstIdx hashes i
    if e ≠ i ∧ equivalent e i nodes nodes true then e else i

/-- `Deduplicater::run`: rewire every node's operand indices through the
merge table (constants and symbols are unchanged). -/
def dedupRun (hf : HashFns F) (nodes : List (Node F)) : List (Node F) :=
  let indices := dedupIndices hf nodes
  nodes.map fun n => match n with
    | .constant v => .constant v
    | .symbol c => .symbol c
    | .unary op i => .unary op (indices.getD i 0)
    | .binary op l r => .binary op (indices.getD l 0) (indices.getD r 0)

/-! ### Trimmer (`helper.rs::Trimmer`) -/

/-- Liveness mark of node `j` for a trim from `root`: whether the walk from
the root visits `j`.  The source marks via `walk_nodes(.., unique = true,
Original)`; first-visit deduplication changes which repeats are yielded but
not the set of visited indices, which is what the marks record. -/
def liveNode (nodes : List (Node F)) (root j : Nat) : Bool :=
  (walkFrom nodes .original root).contains j

/-- New position of old index `j` after trimming: the exclusive prefix sum of
the liveness marks at `j`. -/
def newIndex (nodes : List (Node F)) (root j : Nat) : Nat :=
  (List.range j).countP (liveNode nodes root)

/-- Rewrite one surviving node's operand indices through the mapping. -/
def remapNode (nodes : List (Node F)) (root : Nat) : Node F → Node F
  | .constant v => .constant v
  | .symbol c => .symbol c
  | .unary op i => .unary op (newIndex nodes root i)
  | .binary op l r => .binary op (newIndex nodes root l) (newIndex nodes root r)

/-- The node vector produced by `Trimmer::trim` from a fresh trimmer: live
nodes in their original relative order, operand indices renumbered. -/
def trimNodes (nodes : List (Node F)) (root : Nat) : List (Node F) :=
  (((List.range nodes.length).filter (liveNode nodes root)).map
    fun j => remapNode nodes root (nodes.getD j defaultNode))

/-- The scratch buffers owned by a `Trimmer` (`helper.rs` lines 296-307). -/
structure TrimmerState (F : Type) : Type where
  indices : List (Bool × Nat)
  trimmed : List (Node F)

/-- `Trimmer::new`: both buffers empty. -/
def trimmerNew : TrimmerState F := ⟨[], []⟩

/-- One stateful call of `Trimmer::trim`.  `indices` is cleared and resized
on entry, so its incoming contents are irrelevant; `trimmed` is NOT cleared:
the filtered nodes are appended (`extend`) to whatever it already holds, the
result is swapped with the consumed input vector and returned, and the input
vector becomes the new `trimmed` buffer. -/
def trimRun (st : TrimmerState F) (nodes : List (Node F)) (root : Nat) :
    List (Node F) × TrimmerState F :=
  let out := st.trimmed ++ trimNodes nodes root
  (out, ⟨(List.range nodes.length).map
      fun j => (liveNode nodes root j, newIndex nodes root j), nodes⟩)

/-- The pipeline named by claim C1 (`Tree::deduplicate` with the in-src
`Trimmer` standing for the absent `prune.rs::Pruner`): deduplicate the nodes,
then trim from the old root index, with fresh helper instances. -/
def deduplicate (hf : HashFns F) (nodes : List (Node F)) : List (Node F) :=
  (trimRun trimmerNew (dedupRun hf nodes) (rootIndex nodes)).1

/-! ### Evaluator (`eval.rs`) -/

/-- Errors from `eval.rs` (`enum EvaluationError`). -/
inductive EvalError : Type
  | variableNotFound (label : Char)
  | uninitializedValueRead
  deriving DecidableEq, Repr

/-- Interpretation of the operators (`UnaryOp::apply` / `BinaryOp::apply`,
whose floating-point bodies are not under `src/`): abstract scalar semantics. -/
structure OpSem (F : Type) : Type where
  unary : UnaryOp → F → F
  binary : BinaryOp → F → F → F

/-- `Evaluator::read`: the value of register `index`, or
`UninitializedValueRead` when the register holds no value. -/
def readReg (regs : List (Option F)) (index : Nat) : Except EvalError F :=
  match regs.getD index none with
  | some v => .ok v
  | none => .error .uninitializedValueRead

/-- The value written for the node at `idx` during the forward pass of
`Evaluator::run` (a `Symbol` whose own register is unset aborts with
`VariableNotFound`). -/
def evalNodeAt (S : OpSem F) (nodes : List (Node F)) (regs : List (Option F))
    (idx : Nat) : Except EvalError F :=
  match nodes.getD idx defaultNode with
  | .constant v => .ok v
  | .symbol c =>
    match regs.getD idx none with
    | none => .error (.variableNotFound c)
    | some v => .ok v
  | .unary op i =>
    match readReg regs i with
    | .error e => .error e
    | .ok x => .ok (S.unary op x)
  | .binary op l r =>
    match readReg regs l with
    | .error e => .error e
    | .ok a =>
      match readReg regs r with
      | .error e => .error e
      | .ok b => .ok (S.binary op a b)

/-- The loop of `Evaluator::run`: process `rem` consecutive indices starting
at `idx`, writing each computed value into its register (an error from a node
aborts the loop, as the `?` operator does). -/
def runSteps (S : OpSem F) (nodes : List (Node F)) :
    Nat → Nat → List (Option F) → Except EvalError (List (Option F))
  | 0, _, regs => .ok regs
  | rem + 1, idx, regs =>
    match evalNodeAt S nodes regs idx with
    | .error e => .error e
    | .ok v => runSteps S nodes rem (idx + 1) (regs.set idx (some v))

/-- `Evaluator::run`: the full forward pass followed by reading the root
register. -/
def runEval (S : OpSem F) (nodes : List (Node F)) (regs : List (Option F)) :
    Except EvalError F :=
  match runSteps S nodes nodes.length 0 regs with
  | .error e => .error e
  | .ok regs2 => readReg regs2 (rootIndex nodes)

/-- `Evaluator::set_var`: walk the node and register vectors in lockstep
(mutating in place; a longer register vector keeps its tail) and store the
value in the register of every `Symbol(label)` node. -/
def setVar (label : Char) (value : F) :
    List (Node F) → List (Option F) → List (Option F)
  | n :: ns, r :: rs =>
    (match n with
      | .symbol l => if l = label then some value else r
      | _ => r) :: setVar label value ns rs
  | _, rs => rs

/-- The register file of `Evaluator::new` followed by `set_var(c, v)` for
every binding `some v = σ c`: a variable binding σ installs `σ c` at every
`Symbol c` position and `none` elsewhere. -/
def initRegs (nodes : List (Node F)) (σ : Char → Option F) : List (Option F) :=
  nodes.map fun n => match n with
    | .symbol c => σ c
    | _ => none

/-! ### Templates (`template.rs`) -/

/-- A rewrite template: a pattern (`ping`) and a replacement (`pong`) node
vector (`template.rs::Template`). -/
structure Template (F : Type) : Type where
  ping : List (Node F)
  pong : List (Node F)
  deriving DecidableEq, Repr

/-- `Template::mirror_templates`: the loop reads each of the first `num`
templates of the growing vector and pushes its (pong, ping) swap, so the
result is the original list followed by the swapped copies in order. -/
def mirrorTemplates (ts : List (Template F)) : List (Template F) :=
  ts ++ ts.map fun t => ⟨t.pong, t.ping⟩

/-! ### Reference denotational semantics (proof device, not source code)

The recursive meaning of a node: the value its subtree evaluates to under a
binding σ, or `none` when a referenced symbol is unbound (or the vector is
not topologically ordered, in which case the guards cut the recursion). -/

/-- Strict lifting of a binary operator to optional values. -/
def denoteBin (S : OpSem F) (op : BinaryOp) : Option F → Option F → Option F
  | some a, some b => some (S.binary op a b)
  | _, _ => none

/-- Recursive denotation of the subtree rooted at `k`. -/
def denote (S : OpSem F) (nodes : List (Node F)) (σ : Char → Option F) : Nat → Option F
  | k =>
    match h : nodes.getD k defaultNode with
    | .constant v => some v
    | .symbol c => σ c
    | .unary op i =>
      if hi : i < k then (denote S nodes σ i).map (S.unary op) else none
    | .binary op l r =>
      if hlr : l < k ∧ r < k then
        denoteBin S op (denote S nodes σ l) (denote S nodes σ r)
      else none
  termination_by k => k
  decreasing_by
  · exact hi
  · exact hlr.1
  · exact hlr.2

/-! ### Commutative-operand swaps (the transformations of claims C3/C4) -/

/-- `nodes'` arises from `nodes` by swapping the two operand indices of some
subset of its commutative binary nodes. -/
def SwapRel (nodes nodes' : List (Node F)) : Prop :=
  nodes'.length = nodes.length ∧
  ∀ k, k < nodes.length →
    nodes'.getD k defaultNode = nodes.getD k defaultNode ∨
    ∃ op l r, op.isCommutative = true ∧
      nodes.getD k defaultNode = .binary op l r ∧
      nodes'.getD k defaultNode = .binary op r l

/-- As `SwapRel`, additionally requiring that at every swapped node the two
operand nodes compare strictly (no tie) in the §3 total node ordering. -/
def SwapRelStrict (nodes nodes' : List (Node F)) : Prop :=
  nodes'.length = nodes.length ∧
  ∀ k, k < nodes.length →
    nodes'.getD k defaultNode = nodes.getD k defaultNode ∨
    ∃ op l r, op.isCommutative = true ∧
      nodes.getD k defaultNode = .binary op l r ∧
      nodes'.getD k defaultNode = .binary op r l ∧
      compareNode (nodes.getD l defaultNode) (nodes.getD r defaultNode) ≠ .eq

/-! ### Concrete instantiation used by witnesses and counterexamples

`Int` stands in for the NaN-free `f64` values; the operator semantics and the
hash combiners below are arbitrary computable instances of the abstracted
primitives (any instance would do; the claims' theorems are generic). -/

/-- Sample unary semantics over `Int`. -/
def intUnary : UnaryOp → Int → Int
  | .negate, x => -x
  | _, x => x

/-- Sample binary semantics over `Int`; commutative operators get genuinely
commutative interpretations. -/
def intBinary : BinaryOp → Int → Int → Int
  | .add, a, b => a + b
  | .subtract, a, b => a - b
  | .multiply, a, b => a * b
  | .divide, a, b => a - 2 * b
  | .pow, a, b => a + 2 * b
  | .min, a, b => Min.min a b
  | .max, a, b => Max.max a b

/-- Sample operator semantics record over `Int`. -/
def intSem : OpSem Int := ⟨intUnary, intBinary⟩

/-- Sample hash combiners over `Int` (computable, collision-prone smallness
is irrelevant to the theorems). -/
def intHash : HashFns Int :=
  ⟨fun v => v.natAbs * 2 + 7,
   fun c => c.toNat * 3 + 1,
   fun op h => h * 17 + op.index + 2,
   fun op a b => (a * 31 + b) * 13 + op.index + 3⟩

/-! ## Lemmas -/

lemma getD_map_of_lt {A B : Type} (f : A → B) (l : List A) (i : Nat)
    (h : i < l.length) (d : B) (d' : A) :
    (l.map f).getD i d = f (l.getD i d') := by
  rw [List.getD_eq_getElem?_getD, List.getD_eq_getElem?_getD, List.getElem?_map,
    List.getElem?_eq_getElem h]
  rfl

lemma getD_range_of_lt {i n : Nat} (h : i < n) (d : Nat) :
    (List.range n).getD i d = i := by
  rw [List.getD_eq_getElem?_getD, List.getElem?_range h]
  rfl

lemma topoCheck_iff {nodes : List (Node F)} :
    topoCheck nodes = true ↔
      ∀ k, k < nodes.length → childOK k (nodes.getD k defaultNode) = true := by
  simp [topoCheck, List.all_eq_true, List.mem_range]

lemma isValid_iff {nodes : List (Node F)} :
    isValid nodes = true ↔
      0 < nodes.length ∧
      ∀ k, k < nodes.length → childOK k (nodes.getD k defaultNode) = true := by
  rw [isValid, Bool.and_eq_true, Bool.not_eq_true', ← topoCheck_iff,
    List.isEmpty_eq_false_iff_exists_mem]
  constructor
  · rintro ⟨⟨x, hx⟩, h2⟩
    exact ⟨List.length_pos_of_mem hx, h2⟩
  · rintro ⟨h1, h2⟩
    refine ⟨?_, h2⟩
    rcases nodes with _ | ⟨a, tl⟩
    · simp at h1
    · exact ⟨a, List.mem_cons_self a tl⟩

lemma childOK_unary_iff {k i : Nat} {op : UnaryOp} :
    childOK k (Node.unary op i : Node F) = true ↔ i < k := by
  simp [childOK]

lemma childOK_binary_iff {k l r : Nat} {op : BinaryOp} :
    childOK k (Node.binary op l r : Node F) = true ↔ l < k ∧ r < k := by
  simp [childOK]

/-! ## Claim theorems -/

/-- Claim C10: `Tree::new(n)` always succeeds and returns the singleton
vector `[n]` (length 1, node `n` at position 0) with no validation; for a
`Unary` or `Binary` node with any operand indices, the result fails the
topological-order/bounded-index validity check (a child of the node at
position 0 would have to sit at an index below 0). -/
theorem c10_tree_new (n : Node F) (uop : UnaryOp) (bop : BinaryOp) (i l r : Nat) :
    Tree.new n = [n] ∧ (Tree.new n).length = 1 ∧
    (Tree.new n).getD 0 defaultNode = n ∧
    topoCheck (Tree.new (Node.unary uop i : Node F)) = false ∧
    isValid (Tree.new (Node.unary uop i : Node F)) = false ∧
    topoCheck (Tree.new (Node.binary bop l r : Node F)) = false ∧
    isValid (Tree.new (Node.binary bop l r : Node F)) = false := by
  refine ⟨rfl, rfl, rfl, ?_, ?_, ?_, ?_⟩ <;>
    simp [Tree.new, isValid, topoCheck, childOK, List.range_succ]

/-- Claim C8: `mirror_templates` on `n` templates returns exactly `2n`
templates; the first `n` are the originals unchanged and entry `n + i` is the
`i`-th original with pattern and replacement swapped. -/
theorem c8_mirror_templates (ts : List (Template F)) :
    (mirrorTemplates ts).length = 2 * ts.length ∧
    ∀ i, i < ts.length →
      (mirrorTemplates ts).getD i ⟨[], []⟩ = ts.getD i ⟨[], []⟩ ∧
      (mirrorTemplates ts).getD (ts.length + i) ⟨[], []⟩ =
        ⟨(ts.getD i ⟨[], []⟩).pong, (ts.getD i ⟨[], []⟩).ping⟩ := by
  refine ⟨by simp [mirrorTemplates]; omega, fun i hi => ⟨?_, ?_⟩⟩
  · exact List.getD_append _ _ _ _ hi
  · rw [mirrorTemplates, List.getD_append_right _ _ _ _ (by omega),
      Nat.add_sub_cancel_left, getD_map_of_lt _ _ _ hi _ ⟨[], []⟩]

/-- Claim C8 witness. -/
theorem c8_mirror_templates_witness :
    (0 : Nat) < 1 ∧
    (mirrorTemplates [Template.mk [Node.constant (1 : Int)] [Node.symbol 'a']]).getD 0 ⟨[], []⟩ =
      ([Template.mk [Node.constant (1 : Int)] [Node.symbol 'a']].getD 0 ⟨[], []⟩) ∧
    (mirrorTemplates [Template.mk [Node.constant (1 : Int)] [Node.symbol 'a']]).getD 1 ⟨[], []⟩ =
      ⟨[Node.symbol 'a'], [Node.constant (1 : Int)]⟩ := by
  have h := (c8_mirror_templates [Template.mk [Node.constant (1 : Int)] [Node.symbol 'a']]).2
    0 (by decide)
  exact ⟨by decide, h.1, h.2⟩

lemma setVar_length (label : Char) (v : F) :
    ∀ (nodes : List (Node F)) (regs : List (Option F)),
      (setVar label v nodes regs).length = regs.length := by
  intro nodes
  induction nodes with
  | nil => intro regs; rfl
  | cons n ns ih =>
    intro regs
    cases regs with
    | nil => rfl
    | cons r rs => simp [setVar, ih rs]

lemma setVar_getD (label : Char) (v : F) :
    ∀ (nodes : List (Node F)) (regs : List (Option F)) (i : Nat),
      i < nodes.length → i < regs.length →
      (setVar label v nodes regs).getD i none =
        (if nodes.getD i defaultNode = .symbol label then some v
         else regs.getD i none) := by
  intro nodes
  induction nodes with
  | nil => intro regs i hi _; simp at hi
  | cons n ns ih =>
    intro regs i hi hri
    cases regs with
    | nil => simp at hri
    | cons r rs =>
      cases i with
      | zero =>
        cases n with
        | symbol c =>
          by_cases hc : c = label <;> simp [setVar, hc, defaultNode]
        | constant x => simp [setVar, defaultNode]
        | unary op j => simp [setVar, defaultNode]
        | binary op l r2 => simp [setVar, defaultNode]
      | succ j =>
        have hj : j < ns.length := by simpa using hi
        have hrj : j < rs.length := by simpa using hri
        have hstep : (setVar label v (n :: ns) (r :: rs)).getD (j + 1) none =
            (setVar label v ns rs).getD j none := by
          cases n <;> simp [setVar]
        rw [hstep, List.getD_cons_succ, List.getD_cons_succ]
        exact ih rs j hj hrj

lemma setVar_id (label : Char) (v : F) :
    ∀ (nodes : List (Node F)) (regs : List (Option F)),
      (∀ nd ∈ nodes, nd ≠ Node.symbol label) →
      setVar label v nodes regs = regs := by
  intro nodes
  induction nodes with
  | nil => intro regs _; rfl
  | cons n ns ih =>
    intro regs hno
    cases regs with
    | nil => rfl
    | cons r rs =>
      have hn : n ≠ Node.symbol label := hno n (List.mem_cons_self n ns)
      have htl : ∀ nd ∈ ns, nd ≠ Node.symbol label :=
        fun nd hm => hno nd (List.mem_cons_of_mem n hm)
      cases n with
      | symbol c =>
        have : ¬ c = label := fun hc => hn (by rw [hc])
        simp [setVar, this, ih rs htl]
      | constant x => simp [setVar, ih rs htl]
      | unary op j => simp [setVar, ih rs htl]
      | binary op l r2 => simp [setVar, ih rs htl]

/-- Claim C9: `set_var(c, v)` writes `Some v` into the register of every
index whose node is `Symbol c` and leaves every other register unchanged (the
register file keeps its length); when no node is `Symbol c` the register file
is returned entirely unchanged (and the operation reports no error — its
return type has none). -/
theorem c9_set_var (label : Char) (v : F) (nodes : List (Node F))
    (regs : List (Option F)) (hlen : regs.length = nodes.length) :
    (setVar label v nodes regs).length = regs.length ∧
    (∀ i, i < nodes.length →
      (setVar label v nodes regs).getD i none =
        (if nodes.getD i defaultNode = .symbol label then some v
         else regs.getD i none)) ∧
    ((∀ nd ∈ nodes, nd ≠ Node.symbol label) → setVar label v nodes regs = regs) := by
  exact ⟨setVar_length label v nodes regs,
    fun i hi => setVar_getD label v nodes regs i hi (by omega),
    setVar_id label v nodes regs⟩

/-- Claim C9 witness. -/
theorem c9_set_var_witness :
    ([some (5 : Int), none] : List (Option Int)).length =
        ([Node.symbol 'x', Node.constant 2] : List (Node Int)).length ∧
    (setVar 'x' (7 : Int) [Node.symbol 'x', Node.constant 2]
        [some (5 : Int), none]).getD 0 none = some 7 ∧
    (setVar 'y' (7 : Int) [Node.symbol 'x', Node.constant 2]
        [some (5 : Int), none]) = [some (5 : Int), none] := by
  have h1 := c9_set_var 'x' (7 : Int) [Node.symbol 'x', Node.constant 2]
    [some (5 : Int), none] (by decide)
  have h2 := c9_set_var 'y' (7 : Int) [Node.symbol 'x', Node.constant 2]
    [some (5 : Int), none] (by decide)
  refine ⟨by decide, ?_, h2.2.2 (by decide)⟩
  have := h1.2.1 0 (by decide)
  simpa using this

lemma binaryOp_length (lhs rhs : List (Node F)) (op : BinaryOp) :
    (binaryOp lhs rhs op).length = lhs.length + rhs.length + 1 := by
  simp [binaryOp]
  omega

/-- Claim C2: composing two valid trees with `binary_op` yields a valid tree,
and applying `unary_op` to a valid tree yields a valid tree (non-empty,
topologically ordered with all operand indices strictly below their node's
position, hence in bounds, root at the end). -/
theorem c2_compose_valid (lhs rhs : List (Node F)) (bop : BinaryOp)
    (uop : UnaryOp) (hl : isValid lhs = true) (hr : isValid rhs = true) :
    isValid (binaryOp lhs rhs bop) = true ∧ isValid (unaryOp lhs uop) = true := by
  rw [isValid_iff] at hl hr
  obtain ⟨hl1, hl2⟩ := hl
  obtain ⟨hr1, hr2⟩ := hr
  constructor
  · rw [isValid_iff]
    refine ⟨by rw [binaryOp_length]; omega, ?_⟩
    intro k hk
    rw [binaryOp_length] at hk
    rw [binaryOp]
    have hmlen : (lhs ++ rhs.map (shiftNode lhs.length)).length =
        lhs.length + rhs.length := by simp
    by_cases h2 : k < lhs.length + rhs.length
    · rw [List.getD_append _ _ _ _ (by omega)]
      by_cases h1 : k < lhs.length
      · rw [List.getD_append _ _ _ _ h1]
        exact hl2 k h1
      · push_neg at h1
        have h2' : k - lhs.length < rhs.length := by omega
        rw [List.getD_append_right _ _ _ _ h1,
          getD_map_of_lt _ _ _ h2' _ defaultNode]
        have := hr2 (k - lhs.length) h2'
        cases hnd : rhs.getD (k - lhs.length) defaultNode with
        | constant v => simp [shiftNode, childOK]
        | symbol c => simp [shiftNode, childOK]
        | unary op i =>
          rw [hnd, childOK_unary_iff] at this
          rw [shiftNode, childOK_unary_iff]
          omega
        | binary op l r =>
          rw [hnd, childOK_binary_iff] at this
          rw [shiftNode, childOK_binary_iff]
          omega
    · have hkk : k - (lhs.length + rhs.length) = 0 := by omega
      rw [List.getD_append_right _ _ _ _ (by omega), hmlen, hkk,
        List.getD_cons_zero, childOK_binary_iff]
      omega
  · rw [isValid_iff]
    refine ⟨by simp [unaryOp], ?_⟩
    intro k hk
    simp only [unaryOp, List.length_append, List.length_cons,
      List.length_nil] at hk
    rw [unaryOp]
    by_cases h1 : k < lhs.length
    · rw [List.getD_append _ _ _ _ h1]
      exact hl2 k h1
    · have hk0 : k = lhs.length := by omega
      rw [List.getD_append_right _ _ _ _ (by omega), hk0, Nat.sub_self,
        List.getD_cons_zero, rootIndex, childOK_unary_iff]
      omega

/-- Claim C2 witness. -/
theorem c2_compose_valid_witness :
    isValid [Node.constant (1 : Int)] = true ∧
    isValid ([Node.symbol 'x', Node.unary .sin 0] : List (Node Int)) = true ∧
    isValid (binaryOp [Node.constant (1 : Int)]
      [Node.symbol 'x', Node.unary .sin 0] .add) = true ∧
    isValid (unaryOp [Node.constant (1 : Int)] .sqrt) = true := by
  have h := c2_compose_valid [Node.constant (1 : Int)]
    [Node.symbol 'x', Node.unary .sin 0] .add .sqrt (by decide) (by decide)
  exact ⟨by decide, by decide, h.1, h.2⟩

lemma getD_set_eq {A : Type} (l : List A) (i : Nat) (a d : A) (h : i < l.length) :
    (l.set i a).getD i d = a := by
  rw [List.getD_eq_getElem?_getD, List.getElem?_set_self h]
  rfl

lemma getD_set_ne {A : Type} (l : List A) (i j : Nat) (a d : A) (h : i ≠ j) :
    (l.set i a).getD j d = l.getD j d := by
  rw [List.getD_eq_getElem?_getD, List.getElem?_set_ne h, ← List.getD_eq_getElem?_getD]

lemma evalNodeAt_cases (S : OpSem F) (nodes : List (Node F))
    (regs : List (Option F)) (idx : Nat)
    (hok : childOK idx (nodes.getD idx defaultNode) = true)
    (hbelow : ∀ i, i < idx → (regs.getD i none).isSome = true) :
    (∃ v, evalNodeAt S nodes regs idx = .ok v) ∨
    (∃ c, evalNodeAt S nodes regs idx = .error (.variableNotFound c)) := by
  cases hnd : nodes.getD idx defaultNode with
  | constant v => exact Or.inl ⟨v, by simp only [evalNodeAt, hnd]⟩
  | symbol c =>
    cases hr : regs.getD idx none with
    | none => exact Or.inr ⟨c, by simp only [evalNodeAt, hnd, hr]⟩
    | some v => exact Or.inl ⟨v, by simp only [evalNodeAt, hnd, hr]⟩
  | unary op j =>
    rw [hnd, childOK_unary_iff] at hok
    obtain ⟨a, ha⟩ := Option.isSome_iff_exists.mp (hbelow j hok)
    exact Or.inl ⟨S.unary op a, by simp only [evalNodeAt, hnd, readReg, ha]⟩
  | binary op l r =>
    rw [hnd, childOK_binary_iff] at hok
    obtain ⟨a, ha⟩ := Option.isSome_iff_exists.mp (hbelow l hok.1)
    obtain ⟨b, hb⟩ := Option.isSome_iff_exists.mp (hbelow r hok.2)
    exact Or.inl ⟨S.binary op a b, by simp only [evalNodeAt, hnd, readReg, ha, hb]⟩

lemma runSteps_progress (S : OpSem F) (nodes : List (Node F))
    (htopo : ∀ k, k < nodes.length → childOK k (nodes.getD k defaultNode) = true) :
    ∀ (rem idx : Nat) (regs : List (Option F)), idx + rem = nodes.length →
      regs.length = nodes.length →
      (∀ i, i < idx → (regs.getD i none).isSome = true) →
      (∃ regs2, runSteps S nodes rem idx regs = .ok regs2 ∧
        regs2.length = nodes.length ∧
        (∀ i, i < nodes.length → (regs2.getD i none).isSome = true)) ∨
      (∃ c, runSteps S nodes rem idx regs = .error (.variableNotFound c)) := by
  intro rem
  induction rem with
  | zero =>
    intro idx regs hsum hlen hbelow
    exact Or.inl ⟨regs, rfl, hlen, fun i hi => hbelow i (by omega)⟩
  | succ rem ih =>
    intro idx regs hsum hlen hbelow
    have hidx : idx < nodes.length := by omega
    rcases evalNodeAt_cases S nodes regs idx (htopo idx hidx) hbelow with
      ⟨v, hv⟩ | ⟨c, hc⟩
    · have hnext := ih (idx + 1) (regs.set idx (some v)) (by omega)
        (by simp [hlen])
        (fun i hi => by
          by_cases hij : i = idx
          · subst hij
            rw [getD_set_eq _ _ _ _ (by omega)]
            rfl
          · rw [getD_set_ne _ _ _ _ _ (fun h => hij h.symm)]
            exact hbelow i (by omega))
      rcases hnext with ⟨regs2, h2, h3, h4⟩ | ⟨c, hc2⟩
      · exact Or.inl ⟨regs2, (by simp only [runSteps, hv]; exact h2), h3, h4⟩
      · exact Or.inr ⟨c, by simp only [runSteps, hv]; exact hc2⟩
    · exact Or.inr ⟨c, by simp only [runSteps, hc]⟩

/-- Claim C5: on a tree satisfying the global invariants, `Evaluator::run`
never returns `UninitializedValueRead`, whatever the current register
contents: every call returns `Ok(value)` or `VariableNotFound(label)`,
because the forward pass writes register `i` before any later node reads it
and only earlier registers are read (topological order). -/
theorem c5_no_uninitialized_read (S : OpSem F) (nodes : List (Node F))
    (regs : List (Option F)) (hval : isValid nodes = true)
    (hlen : regs.length = nodes.length) :
    runEval S nodes regs ≠ .error .uninitializedValueRead ∧
    ((∃ v, runEval S nodes regs = .ok v) ∨
      (∃ c, runEval S nodes regs = .error (.variableNotFound c))) := by
  rw [isValid_iff] at hval
  obtain ⟨hpos, htopo⟩ := hval
  have h := runSteps_progress S nodes htopo nodes.length 0 regs (by omega) hlen
    (fun i hi => absurd hi (Nat.not_lt_zero i))
  rcases h with ⟨regs2, h2, _h3, h4⟩ | ⟨c, hc⟩
  · have hroot : (regs2.getD (rootIndex nodes) none).isSome = true :=
      h4 _ (by rw [rootIndex]; omega)
    obtain ⟨v, hv⟩ := Option.isSome_iff_exists.mp hroot
    have hrun : runEval S nodes regs = .ok v := by
      simp only [runEval, h2, readReg, hv]
    exact ⟨(by rw [hrun]; intro hcontra; cases hcontra), Or.inl ⟨v, hrun⟩⟩
  · have hrun : runEval S nodes regs = .error (.variableNotFound c) := by
      simp only [runEval, hc]
    exact ⟨(by rw [hrun]; intro hcontra; cases hcontra), Or.inr ⟨c, hrun⟩⟩

/-- Claim C5 witness. -/
theorem c5_no_uninitialized_read_witness :
    isValid ([Node.symbol 'x', Node.unary .sqrt 0] : List (Node Int)) = true ∧
    ([none, none] : List (Option Int)).length =
      ([Node.symbol 'x', Node.unary .sqrt 0] : List (Node Int)).length ∧
    (runEval intSem [Node.symbol 'x', Node.unary .sqrt 0] [none, none] ≠
      .error .uninitializedValueRead) :=
  ⟨by decide, by decide,
    (c5_no_uninitialized_read intSem [Node.symbol 'x', Node.unary .sqrt 0]
      [none, none] (by decide) (by decide)).1⟩

/-- Claim C7: for the tree `sqrt(x)` (nodes `[Symbol x, Unary Sqrt 0]`),
running the evaluator with no binding for `x` returns
`VariableNotFound('x')`; in general, whenever the forward pass reaches a
`Symbol(c)` node whose own register is unset, it returns
`VariableNotFound(c)`. -/
theorem c7_unbound_symbol (S : OpSem F) :
    runEval S [Node.symbol 'x', Node.unary .sqrt 0]
      (initRegs [Node.symbol 'x', Node.unary .sqrt 0] (fun _ => none)) =
      .error (.variableNotFound 'x') ∧
    (∀ (nodes : List (Node F)) (regs : List (Option F)) (rem idx : Nat)
      (c : Char), 0 < rem → nodes.getD idx defaultNode = .symbol c →
      regs.getD idx none = none →
      runSteps S nodes rem idx regs = .error (.variableNotFound c)) := by
  constructor
  · rfl
  · intro nodes regs rem idx c hrem h1 h2
    cases rem with
    | zero => omega
    | succ r => simp only [runSteps, evalNodeAt, h1, h2]

/-- Claim C7 witness. -/
theorem c7_unbound_symbol_witness :
    (0 : Nat) < 2 ∧
    ([Node.symbol 'x', Node.unary .sqrt 0] : List (Node Int)).getD 0
      defaultNode = .symbol 'x' ∧
    ([none, none] : List (Option Int)).getD 0 none = none ∧
    runSteps intSem [Node.symbol 'x', Node.unary .sqrt 0] 2 0 [none, none] =
      .error (.variableNotFound 'x') :=
  ⟨by decide, by decide, by decide,
    (c7_unbound_symbol intSem).2 [Node.symbol 'x', Node.unary .sqrt 0]
      [none, none] 2 0 'x' (by decide) (by decide) (by decide)⟩

lemma hashBufAux_length (hf : HashFns F) (nodes : List (Node F)) (k : Nat) :
    (hashBufAux hf nodes k).length = k := by
  induction k with
  | zero => rfl
  | succ k ih => simp [hashBufAux, ih]

lemma hashPair_comm (op : BinaryOp) (hc : op.isCommutative = true)
    (h1 h2 : Nat) : hashPair op h1 h2 = hashPair op h2 h1 := by
  unfold hashPair
  rcases Nat.lt_trichotomy h1 h2 with h | h | h
  · rw [if_neg (fun hx => absurd hx.2 (by omega)), if_pos ⟨hc, h⟩]
  · rw [if_neg (fun hx => absurd hx.2 (by omega)),
      if_neg (fun hx => absurd hx.2 (by omega)), h]
  · rw [if_pos ⟨hc, h⟩, if_neg (fun hx => absurd hx.2 (by omega))]

lemma hashBufAux_swapRel (hf : HashFns F) {nodes nodes' : List (Node F)}
    (hs : SwapRel nodes nodes') :
    ∀ k, k ≤ nodes.length →
      hashBufAux hf nodes' k = hashBufAux hf nodes k := by
  intro k
  induction k with
  | zero => intro _; rfl
  | succ k ih =>
    intro hk
    have hbuf := ih (by omega)
    rw [hashBufAux, hashBufAux, hbuf]
    rcases hs.2 k (by omega) with heq | ⟨op, l, r, hcomm, hn, hn'⟩
    · rw [heq]
    · rw [hn, hn']
      simp only [hashStep]
      rw [hashPair_comm op hcomm]

/-- Claim C4: for every valid tree (NaN-free constants are what the abstract
linearly ordered constant type models) and every tree obtained by swapping
the operand indices of any subset of its commutative binary nodes, the whole
hash buffer of `hash_nodes` — in particular the root hash of `Tree::hash` —
is unchanged, because `hash_nodes` canonicalizes commutative operands by
swapping the two child hashes whenever the first exceeds the second. -/
theorem c4_hash_commutative_swap (hf : HashFns F) (nodes nodes' : List (Node F))
    (_hval : isValid nodes = true) (hs : SwapRel nodes nodes') :
    hashNodes hf nodes' = hashNodes hf nodes ∧
    treeHash hf nodes' = treeHash hf nodes := by
  have hlen := hs.1
  have h := hashBufAux_swapRel hf hs nodes.length (le_refl _)
  constructor
  · rw [hashNodes, hashNodes, hlen, h]
  · rw [treeHash, treeHash, hashNodes, hashNodes, rootIndex, rootIndex, hlen, h]

/-- Claim C4 witness: `add(sin x, sin y)` with the root's operands swapped. -/
theorem c4_hash_commutative_swap_witness :
    isValid ([Node.symbol 'x', Node.unary .sin 0, Node.symbol 'y',
      Node.unary .sin 2, Node.binary .add 1 3] : List (Node Int)) = true ∧
    SwapRel ([Node.symbol 'x', Node.unary .sin 0, Node.symbol 'y',
      Node.unary .sin 2, Node.binary .add 1 3] : List (Node Int))
      [Node.symbol 'x', Node.unary .sin 0, Node.symbol 'y',
      Node.unary .sin 2, Node.binary .add 3 1] ∧
    treeHash intHash [Node.symbol 'x', Node.unary .sin 0, Node.symbol 'y',
      Node.unary .sin 2, Node.binary .add 3 1] =
      treeHash intHash [Node.symbol 'x', Node.unary .sin 0, Node.symbol 'y',
      Node.unary .sin 2, Node.binary .add 1 3] := by
  have hswap : SwapRel ([Node.symbol 'x', Node.unary .sin 0, Node.symbol 'y',
      Node.unary .sin 2, Node.binary .add 1 3] : List (Node Int))
      [Node.symbol 'x', Node.unary .sin 0, Node.symbol 'y',
      Node.unary .sin 2, Node.binary .add 3 1] := by
    refine ⟨rfl, ?_⟩
    intro k hk
    simp only [List.length_cons, List.length_nil] at hk
    interval_cases k
    · exact Or.inl rfl
    · exact Or.inl rfl
    · exact Or.inl rfl
    · exact Or.inl rfl
    · exact Or.inr ⟨.add, 1, 3, rfl, rfl, rfl⟩
  exact ⟨by decide, hswap,
    (c4_hash_commutative_swap intHash _ _ (by decide) hswap).2⟩

/-- Claim C6 (refuted; code bug): `Trimmer::trim` clears its `indices`
buffer on entry but never clears its `trimmed` buffer, which after a call
holds the previous input vector (via the final `mem::swap`).  A second `trim`
on the same instance therefore `extend`s the new filtered nodes onto the
previous input and returns their concatenation, unlike a freshly constructed
`Trimmer`: trimming `[Constant 1]` and then `[Constant 2]` on one instance
returns `[Constant 1, Constant 2]`, while a fresh instance returns
`[Constant 2]`.  (`DepthWalker::walk_nodes` and `Deduplicater::run` do clear
all their buffers, which is why the model only needs `Trimmer` state.) -/
theorem c6_trimmer_reuse_bug :
    (trimRun (trimRun (trimmerNew : TrimmerState Int) [Node.constant 1] 0).2
      [Node.constant 2] 0).1 = [Node.constant 1, Node.constant 2] ∧
    (trimRun (trimmerNew : TrimmerState Int) [Node.constant 2] 0).1 =
      [Node.constant 2] ∧
    (trimRun (trimRun (trimmerNew : TrimmerState Int) [Node.constant 1] 0).2
      [Node.constant 2] 0).1 ≠
      (trimRun (trimmerNew : TrimmerState Int) [Node.constant 2] 0).1 := by
  refine ⟨by decide, by decide, by decide⟩

lemma shapeEq_refl (m : Node F) : shapeEq m m = true := by
  cases m <;> simp [shapeEq]

lemma compareNode_congr_left {m1 m1' : Node F} (h1 : shapeEq m1 m1' = true)
    (m : Node F) : compareNode m1' m = compareNode m1 m := by
  cases m1 <;> cases m1' <;> simp [shapeEq] at h1 <;> rw [h1] <;> cases m <;> rfl

lemma compareNode_congr_right (m : Node F) {m2 m2' : Node F}
    (h2 : shapeEq m2 m2' = true) : compareNode m m2' = compareNode m m2 := by
  cases m2 <;> cases m2' <;> simp [shapeEq] at h2 <;> rw [h2] <;> cases m <;> rfl

lemma compareNode_shape {m1 m1' m2 m2' : Node F} (h1 : shapeEq m1 m1' = true)
    (h2 : shapeEq m2 m2' = true) : compareNode m1' m2' = compareNode m1 m2 := by
  rw [compareNode_congr_left h1, compareNode_congr_right _ h2]

lemma cmp3_swap {A : Type} [LinearOrder A] (a b : A) :
    cmp3 b a = (cmp3 a b).swap := by
  rcases lt_trichotomy a b with h | h | h
  · simp [cmp3, h, asymm h, Ordering.swap]
  · subst h
    simp [cmp3, Ordering.swap]
  · simp [cmp3, h, asymm h, Ordering.swap]

lemma compareNode_swap (m1 m2 : Node F) :
    compareNode m2 m1 = (compareNode m1 m2).swap := by
  cases m1 <;> cases m2 <;> simp only [compareNode] <;>
    first
      | rfl
      | exact cmp3_swap _ _

lemma swapRelStrict_shape {nodes nodes' : List (Node F)}
    (hs : SwapRelStrict nodes nodes') (a : Nat) :
    shapeEq (nodes.getD a defaultNode) (nodes'.getD a defaultNode) = true := by
  by_cases ha : a < nodes.length
  · rcases hs.2 a ha with heq | ⟨op, l, r, _hc, hn, hn', _hstrict⟩
    · rw [heq]
      exact shapeEq_refl _
    · rw [hn, hn']
      simp [shapeEq]
  · rw [List.getD_eq_default _ _ (by omega),
      List.getD_eq_default _ _ (by rw [hs.1]; omega)]
    exact shapeEq_refl _

lemma childrenVisit_binary_cases {nodes : List (Node F)} {k : Nat}
    {op : BinaryOp} {l r : Nat}
    (hnd : nodes.getD k defaultNode = .binary op l r) (ord : NodeOrdering) :
    childrenVisit nodes ord k = [l, r] ∨ childrenVisit nodes ord k = [r, l] := by
  simp only [childrenVisit, hnd]
  cases ord with
  | original => exact Or.inl rfl
  | deterministic =>
    by_cases hcond : (op.isCommutative && (compareNode (nodes.getD r defaultNode)
        (nodes.getD l defaultNode) == Ordering.gt)) = true
    · rw [if_pos hcond]
      exact Or.inr rfl
    · rw [if_neg hcond]
      exact Or.inl rfl

lemma childrenVisit_lt {nodes : List (Node F)} {ord : NodeOrdering} {k : Nat}
    (hok : childOK k (nodes.getD k defaultNode) = true) :
    ∀ x ∈ childrenVisit nodes ord k, x < k := by
  intro x hx
  cases hnd : nodes.getD k defaultNode with
  | constant v =>
    simp only [childrenVisit, hnd] at hx
    simp at hx
  | symbol c =>
    simp only [childrenVisit, hnd] at hx
    simp at hx
  | unary op j =>
    rw [hnd, childOK_unary_iff] at hok
    simp only [childrenVisit, hnd] at hx
    simp at hx
    omega
  | binary op l r =>
    rw [hnd, childOK_binary_iff] at hok
    rcases childrenVisit_binary_cases hnd ord with hcv | hcv <;>
      rw [hcv] at hx <;> simp at hx <;> rcases hx with h | h <;> omega

lemma stackMeasure_nil : stackMeasure [] = 0 := rfl

lemma stackMeasure_cons (k : Nat) (s : List Nat) :
    stackMeasure (k :: s) = 3 ^ k + stackMeasure s := by
  simp [stackMeasure]

lemma stackMeasure_append (s t : List Nat) :
    stackMeasure (s ++ t) = stackMeasure s + stackMeasure t := by
  simp [stackMeasure]

lemma stackMeasure_children_lt {nodes : List (Node F)} {ord : NodeOrdering}
    {k : Nat} (hok : childOK k (nodes.getD k defaultNode) = true) :
    stackMeasure (childrenVisit nodes ord k) < 3 ^ k := by
  have hpow : ∀ j, j < k → 3 ^ j ≤ 3 ^ (k - 1) := fun j hj =>
    Nat.pow_le_pow_right (by norm_num) (by omega)
  have h3k : k ≠ 0 → 3 ^ k = 3 * 3 ^ (k - 1) := fun hk => by
    conv_lhs => rw [show k = (k - 1) + 1 by omega]
    rw [Nat.pow_succ]
    ring
  cases hnd : nodes.getD k defaultNode with
  | constant v =>
    simp only [childrenVisit, hnd, stackMeasure_nil]
    exact Nat.pow_pos (by norm_num)
  | symbol c =>
    simp only [childrenVisit, hnd, stackMeasure_nil]
    exact Nat.pow_pos (by norm_num)
  | unary op j =>
    rw [hnd, childOK_unary_iff] at hok
    simp only [childrenVisit, hnd, stackMeasure_cons, stackMeasure_nil]
    have : (3 : Nat) ^ j < 3 ^ k := Nat.pow_lt_pow_right (by norm_num) hok
    omega
  | binary op l r =>
    rw [hnd, childOK_binary_iff] at hok
    have hl := hpow l hok.1
    have hr := hpow r hok.2
    have hk3 := h3k (by omega)
    have hdpos : 0 < 3 ^ (k - 1) := Nat.pow_pos (by norm_num)
    rcases childrenVisit_binary_cases hnd ord with hcv | hcv <;>
      rw [hcv] <;> simp only [stackMeasure_cons, stackMeasure_nil] <;> omega

lemma childrenVisit_det_swap {nodes nodes' : List (Node F)}
    (hs : SwapRelStrict nodes nodes') {k : Nat} (hk : k < nodes.length) :
    childrenVisit nodes' .deterministic k = childrenVisit nodes .deterministic k := by
  rcases hs.2 k hk with heq | ⟨op, l, r, hc, hn, hn', hstrict⟩
  · cases hnd : nodes.getD k defaultNode with
    | constant v => simp only [childrenVisit, heq, hnd]
    | symbol c => simp only [childrenVisit, heq, hnd]
    | unary op j => simp only [childrenVisit, heq, hnd]
    | binary op l r =>
      simp only [childrenVisit, heq, hnd]
      rw [compareNode_shape (swapRelStrict_shape hs r) (swapRelStrict_shape hs l)]
  · simp only [childrenVisit, hn, hn']
    rw [compareNode_shape (swapRelStrict_shape hs l) (swapRelStrict_shape hs r),
      compareNode_swap (nodes.getD l defaultNode) (nodes.getD r defaultNode)]
    rcases hc3 : compareNode (nodes.getD l defaultNode) (nodes.getD r defaultNode) with
      _ | _ | _
    · simp only [hc, Bool.true_and]
      rfl
    · exact absurd hc3 hstrict
    · simp only [hc, Bool.true_and]
      rfl

lemma eqStacksF_strict_swap {nodes nodes' : List (Node F)}
    (hs : SwapRelStrict nodes nodes')
    (htopo : ∀ k, k < nodes.length → childOK k (nodes.getD k defaultNode) = true) :
    ∀ (f : Nat) (s : List Nat), (∀ x ∈ s, x < nodes.length) →
      2 * stackMeasure s < f → eqStacksF false nodes nodes' f s s = true := by
  intro f
  induction f with
  | zero => intro s _ hm; omega
  | succ f ih =>
    intro s hb hm
    cases s with
    | nil => rfl
    | cons k rest =>
      have hk : k < nodes.length := hb k (List.mem_cons_self _ _)
      have hok := htopo k hk
      have hcv := childrenVisit_det_swap hs hk
      simp only [eqStacksF, Bool.false_and, Bool.false_eq_true, if_false,
        Bool.and_eq_true]
      refine ⟨swapRelStrict_shape hs k, ?_⟩
      rw [hcv]
      apply ih
      · intro x hx
        rcases List.mem_append.mp hx with hx | hx
        · exact lt_trans (childrenVisit_lt hok x hx) hk
        · exact hb x (List.mem_cons_of_mem _ hx)
      · have h1 := @stackMeasure_children_lt F _ nodes NodeOrdering.deterministic k hok
        rw [stackMeasure_append]
        rw [stackMeasure_cons] at hm
        omega

/-- Claim C3 counterexample: the tree `add(sin x, sin y)` is valid (and has
no NaN constants — it has no constants at all), its root is a commutative
node, yet swapping the root's two operand indices makes the equivalence check
return `false`: the Deterministic ordering compares the two `Sin` children as
a tie (only operator ordinals are compared, never subtree contents), keeps
them in stack order, and the paired walks then compare `Symbol x` against
`Symbol y`. -/
theorem c3_counterexample :
    isValid ([Node.symbol 'x', Node.unary .sin 0, Node.symbol 'y',
      Node.unary .sin 2, Node.binary .add 1 3] : List (Node Int)) = true ∧
    SwapRel ([Node.symbol 'x', Node.unary .sin 0, Node.symbol 'y',
      Node.unary .sin 2, Node.binary .add 1 3] : List (Node Int))
      [Node.symbol 'x', Node.unary .sin 0, Node.symbol 'y',
      Node.unary .sin 2, Node.binary .add 3 1] ∧
    equivalent
      (rootIndex ([Node.symbol 'x', Node.unary .sin 0, Node.symbol 'y',
        Node.unary .sin 2, Node.binary .add 1 3] : List (Node Int)))
      (rootIndex ([Node.symbol 'x', Node.unary .sin 0, Node.symbol 'y',
        Node.unary .sin 2, Node.binary .add 3 1] : List (Node Int)))
      ([Node.symbol 'x', Node.unary .sin 0, Node.symbol 'y',
        Node.unary .sin 2, Node.binary .add 1 3] : List (Node Int))
      [Node.symbol 'x', Node.unary .sin 0, Node.symbol 'y',
        Node.unary .sin 2, Node.binary .add 3 1] false = false := by
  refine ⟨by decide, ⟨rfl, ?_⟩, by decide⟩
  intro k hk
  simp only [List.length_cons, List.length_nil] at hk
  interval_cases k
  · exact Or.inl rfl
  · exact Or.inl rfl
  · exact Or.inl rfl
  · exact Or.inl rfl
  · exact Or.inr ⟨.add, 1, 3, rfl, rfl, rfl⟩

/-- Claim C3, amended: for every valid tree and every tree obtained from it
by swapping the two operand indices of a subset of its commutative binary
nodes *at which the two operand nodes compare strictly (not as a tie) in the
§3 total node ordering*, the equivalence check between the two roots (over
the two distinct node vectors) returns true.  The tie restriction is forced
by the counterexample: node comparison never looks at subtree contents, so
tied commutative operands are not canonicalized. -/
theorem c3_equivalent_strict_swap (nodes nodes' : List (Node F))
    (hval : isValid nodes = true) (hs : SwapRelStrict nodes nodes') :
    equivalent (rootIndex nodes) (rootIndex nodes') nodes nodes' false = true := by
  rw [isValid_iff] at hval
  obtain ⟨hpos, htopo⟩ := hval
  have hroot : rootIndex nodes' = rootIndex nodes := by
    rw [rootIndex, rootIndex, hs.1]
  rw [hroot, equivalent]
  apply eqStacksF_strict_swap hs htopo
  · intro x hx
    simp at hx
    subst hx
    rw [rootIndex]
    omega
  · rw [stackMeasure_cons, stackMeasure_nil]
    omega

/-- Claim C3 (amended) witness: `add(x, sin y)` — the children `Symbol x`
and `Unary Sin` compare strictly — with the root's operands swapped. -/
theorem c3_equivalent_strict_swap_witness :
    isValid ([Node.symbol 'x', Node.symbol 'y', Node.unary .sin 1,
      Node.binary .add 0 2] : List (Node Int)) = true ∧
    SwapRelStrict ([Node.symbol 'x', Node.symbol 'y', Node.unary .sin 1,
      Node.binary .add 0 2] : List (Node Int))
      [Node.symbol 'x', Node.symbol 'y', Node.unary .sin 1,
      Node.binary .add 2 0] ∧
    equivalent
      (rootIndex ([Node.symbol 'x', Node.symbol 'y', Node.unary .sin 1,
        Node.binary .add 0 2] : List (Node Int)))
      (rootIndex ([Node.symbol 'x', Node.symbol 'y', Node.unary .sin 1,
        Node.binary .add 2 0] : List (Node Int)))
      ([Node.symbol 'x', Node.symbol 'y', Node.unary .sin 1,
        Node.binary .add 0 2] : List (Node Int))
      [Node.symbol 'x', Node.symbol 'y', Node.unary .sin 1,
        Node.binary .add 2 0] false = true := by
  have hswap : SwapRelStrict ([Node.symbol 'x', Node.symbol 'y',
      Node.unary .sin 1, Node.binary .add 0 2] : List (Node Int))
      [Node.symbol 'x', Node.symbol 'y', Node.unary .sin 1,
      Node.binary .add 2 0] := by
    refine ⟨rfl, ?_⟩
    intro k hk
    simp only [List.length_cons, List.length_nil] at hk
    interval_cases k
    · exact Or.inl rfl
    · exact Or.inl rfl
    · exact Or.inl rfl
    · exact Or.inr ⟨.add, 0, 2, rfl, rfl, rfl, by decide⟩
  exact ⟨by decide, hswap, c3_equivalent_strict_swap _ _ (by decide) hswap⟩

lemma denote_constant {nodes : List (Node F)} {k : Nat} {v : F}
    (S : OpSem F) (σ : Char → Option F)
    (h : nodes.getD k defaultNode = .constant v) :
    denote S nodes σ k = some v := by
  rw [denote, h]

lemma denote_symbol {nodes : List (Node F)} {k : Nat} {c : Char}
    (S : OpSem F) (σ : Char → Option F)
    (h : nodes.getD k defaultNode = .symbol c) :
    denote S nodes σ k = σ c := by
  rw [denote, h]

lemma denote_unary {nodes : List (Node F)} {k j : Nat} {op : UnaryOp}
    (S : OpSem F) (σ : Char → Option F)
    (h : nodes.getD k defaultNode = .unary op j) (hj : j < k) :
    denote S nodes σ k = (denote S nodes σ j).map (S.unary op) := by
  rw [denote, h]
  simp [hj]

lemma denote_binary {nodes : List (Node F)} {k l r : Nat} {op : BinaryOp}
    (S : OpSem F) (σ : Char → Option F)
    (h : nodes.getD k defaultNode = .binary op l r) (hl : l < k) (hr : r < k) :
    denote S nodes σ k =
      denoteBin S op (denote S nodes σ l) (denote S nodes σ r) := by
  rw [denote, h]
  simp [hl, hr]

lemma initRegs_length (nodes : List (Node F)) (σ : Char → Option F) :
    (initRegs nodes σ).length = nodes.length := by
  simp [initRegs]

lemma initRegs_getD (nodes : List (Node F)) (σ : Char → Option F) {i : Nat}
    (hi : i < nodes.length) :
    (initRegs nodes σ).getD i none =
      (match nodes.getD i defaultNode with
        | .symbol c => σ c
        | _ => none) := by
  rw [initRegs, getD_map_of_lt _ _ _ hi _ defaultNode]

/-- Simulation invariant for the forward pass of `Evaluator::run`: processed
registers hold the recursive denotation, unprocessed `Symbol` registers hold
the binding; a successful run therefore fills every register with its node's
denotation. -/
lemma runSteps_denote (S : OpSem F) (nodes : List (Node F)) (σ : Char → Option F)
    (htopo : ∀ k, k < nodes.length → childOK k (nodes.getD k defaultNode) = true) :
    ∀ (rem idx : Nat) (regs regs2 : List (Option F)),
      idx + rem = nodes.length → regs.length = nodes.length →
      (∀ i, i < idx → regs.getD i none = denote S nodes σ i ∧
        (denote S nodes σ i).isSome = true) →
      (∀ i c, idx ≤ i → i < nodes.length →
        nodes.getD i defaultNode = .symbol c → regs.getD i none = σ c) →
      runSteps S nodes rem idx regs = .ok regs2 →
      (∀ i, i < nodes.length → regs2.getD i none = denote S nodes σ i ∧
        (denote S nodes σ i).isSome = true) := by
  intro rem
  induction rem with
  | zero =>
    intro idx regs regs2 hsum hlen hpre _hsuf hrun i hi
    cases hrun
    exact hpre i (by omega)
  | succ rem ih =>
    intro idx regs regs2 hsum hlen hpre hsuf hrun i hi
    have hidx : idx < nodes.length := by omega
    have hstep : ∀ v, evalNodeAt S nodes regs idx = .ok v →
        denote S nodes σ idx = some v := by
      intro v hv
      cases hnd : nodes.getD idx defaultNode with
      | constant w =>
        simp only [evalNodeAt, hnd] at hv
        cases hv
        exact denote_constant S σ hnd
      | symbol c =>
        have hself := hsuf idx c (le_refl idx) hidx hnd
        cases hr : regs.getD idx none with
        | none =>
          simp only [evalNodeAt, hnd, hr] at hv
          exact Except.noConfusion hv
        | some w =>
          simp only [evalNodeAt, hnd, hr] at hv
          cases hv
          rw [denote_symbol S σ hnd, ← hself, hr]
      | unary op j =>
        have hj : j < idx := by
          have := htopo idx hidx
          rw [hnd, childOK_unary_iff] at this
          exact this
        obtain ⟨hval, hsome⟩ := hpre j hj
        obtain ⟨a, ha⟩ := Option.isSome_iff_exists.mp hsome
        have hreg : regs.getD j none = some a := by rw [hval, ha]
        simp only [evalNodeAt, hnd, readReg, hreg] at hv
        cases hv
        rw [denote_unary S σ hnd (by omega), ha]
        rfl
      | binary op l r =>
        have hlr : l < idx ∧ r < idx := by
          have := htopo idx hidx
          rw [hnd, childOK_binary_iff] at this
          exact this
        obtain ⟨hvl, hsl⟩ := hpre l hlr.1
        obtain ⟨hvr, hsr⟩ := hpre r hlr.2
        obtain ⟨a, ha⟩ := Option.isSome_iff_exists.mp hsl
        obtain ⟨b, hb⟩ := Option.isSome_iff_exists.mp hsr
        have hregl : regs.getD l none = some a := by rw [hvl, ha]
        have hregr : regs.getD r none = some b := by rw [hvr, hb]
        simp only [evalNodeAt, hnd, readReg, hregl, hregr] at hv
        cases hv
        rw [denote_binary S σ hnd (by omega) (by omega), ha, hb]
        rfl
    cases hv : evalNodeAt S nodes regs idx with
    | error e =>
      simp only [runSteps, hv] at hrun
      exact Except.noConfusion hrun
    | ok v =>
      have hdv := hstep v hv
      simp only [runSteps, hv] at hrun
      refine ih (idx + 1) (regs.set idx (some v)) regs2 (by omega)
        (by simp [hlen]) ?_ ?_ hrun i hi
      · intro i2 hi2
        by_cases hieq : i2 = idx
        · subst hieq
          constructor
          · rw [getD_set_eq _ _ _ _ (by omega)]
            exact hdv.symm
          · rw [hdv]
            rfl
        · rw [getD_set_ne _ _ _ _ _ (fun hcc => hieq hcc.symm)]
          exact hpre i2 (by omega)
      · intro i2 c hi2 hi2n hnd2
        rw [getD_set_ne _ _ _ _ _ (by omega)]
        exact hsuf i2 c (by omega) hi2n hnd2

/-- A successful `Evaluator::run` from a fresh evaluator with binding σ
computes exactly the recursive denotation of the root. -/
lemma runEval_ok_denote (S : OpSem F) (nodes : List (Node F))
    (σ : Char → Option F) (v : F) (hval : isValid nodes = true)
    (h : runEval S nodes (initRegs nodes σ) = .ok v) :
    denote S nodes σ (rootIndex nodes) = some v := by
  rw [isValid_iff] at hval
  obtain ⟨hpos, htopo⟩ := hval
  cases hrs : runSteps S nodes nodes.length 0 (initRegs nodes σ) with
  | error e =>
    simp only [runEval, hrs] at h
    exact Except.noConfusion h
  | ok regs2 =>
    have hall := runSteps_denote S nodes σ htopo nodes.length 0
      (initRegs nodes σ) regs2 (by omega) (initRegs_length nodes σ)
      (fun i hi => absurd hi (Nat.not_lt_zero i))
      (fun i c _ hi hnd => by rw [initRegs_getD nodes σ hi, hnd]) hrs
    have hroot := hall (rootIndex nodes) (by rw [rootIndex]; omega)
    simp only [runEval, hrs, readReg] at h
    rw [← hroot.1]
    cases hr2 : regs2.getD (rootIndex nodes) none with
    | none => rw [hr2] at h; cases h
    | some w => rw [hr2] at h; cases h; rfl

lemma childrenVisit_binary_det {nodes : List (Node F)} {k : Nat}
    {op : BinaryOp} {l r : Nat}
    (hnd : nodes.getD k defaultNode = .binary op l r) :
    childrenVisit nodes .deterministic k = [l, r] ∨
    (childrenVisit nodes .deterministic k = [r, l] ∧ op.isCommutative = true) := by
  simp only [childrenVisit, hnd]
  by_cases hcond : (op.isCommutative && (compareNode (nodes.getD r defaultNode)
      (nodes.getD l defaultNode) == Ordering.gt)) = true
  · rw [if_pos hcond]
    rw [Bool.and_eq_true] at hcond
    exact Or.inr ⟨rfl, hcond.1⟩
  · rw [if_neg hcond]
    exact Or.inl rfl

lemma denoteBin_comm (S : OpSem F) {op : BinaryOp} (hc : op.isCommutative = true)
    (hcomm : ∀ op : BinaryOp, op.isCommutative = true →
      ∀ a b : F, S.binary op a b = S.binary op b a)
    (o1 o2 : Option F) : denoteBin S op o1 o2 = denoteBin S op o2 o1 := by
  cases o1 with
  | none => cases o2 <;> rfl
  | some a =>
    cases o2 with
    | none => rfl
    | some b =>
      simp only [denoteBin]
      rw [hcomm op hc a b]

/-- Soundness of the equivalence checker over a single vector: a successful
same-slice lockstep comparison pairs the two stacks positionally and forces
the denotations of every pair — in particular of the two roots — to agree
(given that the commutative operators' interpretations are commutative). -/
lemma eqStacksF_denote (S : OpSem F) (nodes : List (Node F)) (σ : Char → Option F)
    (htopo : ∀ k, k < nodes.length → childOK k (nodes.getD k defaultNode) = true)
    (hcomm : ∀ op : BinaryOp, op.isCommutative = true →
      ∀ a b : F, S.binary op a b = S.binary op b a) :
    ∀ (f : Nat) (ls rs : List Nat), (∀ x ∈ ls, x < nodes.length) →
      (∀ x ∈ rs, x < nodes.length) →
      stackMeasure ls + stackMeasure rs < f →
      eqStacksF true nodes nodes f ls rs = true →
      ls.length = rs.length ∧
      ∀ p ∈ ls.zip rs, denote S nodes σ p.1 = denote S nodes σ p.2 := by
  intro f
  induction f with
  | zero => intro ls rs _ _ hm _; omega
  | succ f ih =>
    intro ls rs hbl hbr hm heq
    cases ls with
    | nil =>
      cases rs with
      | nil => exact ⟨rfl, by simp⟩
      | cons r rs' =>
        simp only [eqStacksF] at heq
        exact Bool.noConfusion heq
    | cons li ls' =>
      cases rs with
      | nil =>
        simp only [eqStacksF] at heq
        exact Bool.noConfusion heq
      | cons ri rs' =>
        have hli_n : li < nodes.length := hbl li (List.mem_cons_self _ _)
        have hri_n : ri < nodes.length := hbr ri (List.mem_cons_self _ _)
        have hokl := htopo li hli_n
        have hokr := htopo ri hri_n
        have hbl2 : ∀ x ∈ ls', x < nodes.length :=
          fun x hx => hbl x (List.mem_cons_of_mem _ hx)
        have hbr2 : ∀ x ∈ rs', x < nodes.length :=
          fun x hx => hbr x (List.mem_cons_of_mem _ hx)
        rw [stackMeasure_cons, stackMeasure_cons] at hm
        have hpowl : 0 < 3 ^ li := Nat.pow_pos (by norm_num)
        have hpowr : 0 < 3 ^ ri := Nat.pow_pos (by norm_num)
        simp only [eqStacksF, Bool.true_and] at heq
        by_cases hli : (li == ri) = true
        · rw [if_pos hli] at heq
          obtain ⟨hlen, hpt⟩ := ih ls' rs' hbl2 hbr2 (by omega) heq
          refine ⟨by simp [hlen], ?_⟩
          intro p hp
          rw [List.zip_cons_cons] at hp
          rcases List.mem_cons.mp hp with hp | hp
          · subst hp
            show denote S nodes σ li = denote S nodes σ ri
            rw [(by simpa using hli : li = ri)]
          · exact hpt p hp
        · rw [if_neg hli] at heq
          rw [Bool.and_eq_true] at heq
          obtain ⟨hshape, hrest⟩ := heq
          have hmcl := @stackMeasure_children_lt F _ nodes NodeOrdering.deterministic li hokl
          have hmcr := @stackMeasure_children_lt F _ nodes NodeOrdering.deterministic ri hokr
          obtain ⟨hlen2, hpt2⟩ := ih (childrenVisit nodes .deterministic li ++ ls')
            (childrenVisit nodes .deterministic ri ++ rs')
            (fun x hx => by
              rcases List.mem_append.mp hx with hx | hx
              · exact lt_trans (childrenVisit_lt hokl x hx) hli_n
              · exact hbl2 x hx)
            (fun x hx => by
              rcases List.mem_append.mp hx with hx | hx
              · exact lt_trans (childrenVisit_lt hokr x hx) hri_n
              · exact hbr2 x hx)
            (by rw [stackMeasure_append, stackMeasure_append]; omega)
            hrest
          cases hndl : nodes.getD li defaultNode with
          | constant v1 =>
            cases hndr : nodes.getD ri defaultNode with
            | constant v2 =>
              have hv12 : v1 = v2 := by
                rw [hndl, hndr] at hshape
                simpa [shapeEq] using hshape
              have hcl : childrenVisit nodes .deterministic li = [] := by
                simp only [childrenVisit, hndl]
              have hcr : childrenVisit nodes .deterministic ri = [] := by
                simp only [childrenVisit, hndr]
              rw [hcl, hcr, List.nil_append, List.nil_append] at hlen2 hpt2
              refine ⟨by simp [hlen2], ?_⟩
              intro p hp
              rw [List.zip_cons_cons] at hp
              rcases List.mem_cons.mp hp with hp | hp
              · subst hp
                show denote S nodes σ li = denote S nodes σ ri
                rw [denote_constant S σ hndl, denote_constant S σ hndr, hv12]
              · exact hpt2 p hp
            | symbol c2 => rw [hndl, hndr] at hshape; simp [shapeEq] at hshape
            | unary op2 j2 => rw [hndl, hndr] at hshape; simp [shapeEq] at hshape
            | binary op2 l2 r2 => rw [hndl, hndr] at hshape; simp [shapeEq] at hshape
          | symbol c1 =>
            cases hndr : nodes.getD ri defaultNode with
            | constant v2 => rw [hndl, hndr] at hshape; simp [shapeEq] at hshape
            | symbol c2 =>
              have hc12 : c1 = c2 := by
                rw [hndl, hndr] at hshape
                simpa [shapeEq] using hshape
              have hcl : childrenVisit nodes .deterministic li = [] := by
                simp only [childrenVisit, hndl]
              have hcr : childrenVisit nodes .deterministic ri = [] := by
                simp only [childrenVisit, hndr]
              rw [hcl, hcr, List.nil_append, List.nil_append] at hlen2 hpt2
              refine ⟨by simp [hlen2], ?_⟩
              intro p hp
              rw [List.zip_cons_cons] at hp
              rcases List.mem_cons.mp hp with hp | hp
              · subst hp
                show denote S nodes σ li = denote S nodes σ ri
                rw [denote_symbol S σ hndl, denote_symbol S σ hndr, hc12]
              · exact hpt2 p hp
            | unary op2 j2 => rw [hndl, hndr] at hshape; simp [shapeEq] at hshape
            | binary op2 l2 r2 => rw [hndl, hndr] at hshape; simp [shapeEq] at hshape
          | unary op1 j1 =>
            cases hndr : nodes.getD ri defaultNode with
            | constant v2 => rw [hndl, hndr] at hshape; simp [shapeEq] at hshape
            | symbol c2 => rw [hndl, hndr] at hshape; simp [shapeEq] at hshape
            | unary op2 j2 =>
              have hop : op1 = op2 := by
                rw [hndl, hndr] at hshape
                simpa [shapeEq] using hshape
              have hcl : childrenVisit nodes .deterministic li = [j1] := by
                simp only [childrenVisit, hndl]
              have hcr : childrenVisit nodes .deterministic ri = [j2] := by
                simp only [childrenVisit, hndr]
              rw [hcl, hcr] at hlen2 hpt2
              have hj1 : j1 < li := by rw [hndl, childOK_unary_iff] at hokl; exact hokl
              have hj2 : j2 < ri := by rw [hndr, childOK_unary_iff] at hokr; exact hokr
              have hj12 : denote S nodes σ j1 = denote S nodes σ j2 :=
                hpt2 (j1, j2) (by simp)
              refine ⟨by simpa using hlen2, ?_⟩
              intro p hp
              rw [List.zip_cons_cons] at hp
              rcases List.mem_cons.mp hp with hp | hp
              · subst hp
                show denote S nodes σ li = denote S nodes σ ri
                rw [denote_unary S σ hndl hj1, denote_unary S σ hndr hj2,
                  hj12, hop]
              · exact hpt2 p (by
                  show p ∈ ([j1] ++ ls').zip ([j2] ++ rs')
                  simp only [List.cons_append, List.nil_append, List.zip_cons_cons]
                  exact List.mem_cons_of_mem _ hp)
            | binary op2 l2 r2 => rw [hndl, hndr] at hshape; simp [shapeEq] at hshape
          | binary op1 l1 r1 =>
            cases hndr : nodes.getD ri defaultNode with
            | constant v2 => rw [hndl, hndr] at hshape; simp [shapeEq] at hshape
            | symbol c2 => rw [hndl, hndr] at hshape; simp [shapeEq] at hshape
            | unary op2 j2 => rw [hndl, hndr] at hshape; simp [shapeEq] at hshape
            | binary op2 l2 r2 =>
              have hop : op1 = op2 := by
                rw [hndl, hndr] at hshape
                simpa [shapeEq] using hshape
              have hl1 : l1 < li ∧ r1 < li := by
                rw [hndl, childOK_binary_iff] at hokl; exact hokl
              have hl2 : l2 < ri ∧ r2 < ri := by
                rw [hndr, childOK_binary_iff] at hokr; exact hokr
              have hdl := denote_binary S σ hndl hl1.1 hl1.2
              have hdr := denote_binary S σ hndr hl2.1 hl2.2
              have hmain : ∀ (x1 x2 y1 y2 : Nat),
                  childrenVisit nodes .deterministic li = [x1, x2] →
                  childrenVisit nodes .deterministic ri = [y1, y2] →
                  denote S nodes σ x1 = denote S nodes σ y1 ∧
                  denote S nodes σ x2 = denote S nodes σ y2 ∧
                  ls'.length = rs'.length ∧
                  (∀ p ∈ ls'.zip rs',
                    denote S nodes σ p.1 = denote S nodes σ p.2) := by
                intro x1 x2 y1 y2 hcl hcr
                rw [hcl, hcr] at hlen2 hpt2
                refine ⟨hpt2 (x1, y1) (by simp), hpt2 (x2, y2) (by simp),
                  by simpa using hlen2, ?_⟩
                intro p hp
                exact hpt2 p (by
                  show p ∈ ([x1, x2] ++ ls').zip ([y1, y2] ++ rs')
                  simp only [List.cons_append, List.nil_append, List.zip_cons_cons]
                  exact List.mem_cons_of_mem _ (List.mem_cons_of_mem _ hp))
              have hfinish : denote S nodes σ li = denote S nodes σ ri →
                  ((li :: ls').length = (ri :: rs').length ∧
                  ∀ p ∈ (li :: ls').zip (ri :: rs'),
                    denote S nodes σ p.1 = denote S nodes σ p.2) := by
                intro hhead
                rcases childrenVisit_binary_det hndl with hcl | ⟨hcl, _⟩ <;>
                  rcases childrenVisit_binary_det hndr with hcr | ⟨hcr, _⟩ <;>
                  obtain ⟨_, _, htlen, htpt⟩ := hmain _ _ _ _ hcl hcr <;>
                  refine ⟨by simp [htlen], ?_⟩ <;>
                  intro p hp <;>
                  rw [List.zip_cons_cons] at hp <;>
                  rcases List.mem_cons.mp hp with hp | hp <;>
                  first
                    | (subst hp; exact hhead)
                    | exact htpt p hp
              rcases childrenVisit_binary_det hndl with hcl | ⟨hcl, hcomm1⟩ <;>
                rcases childrenVisit_binary_det hndr with hcr | ⟨hcr, hcomm2⟩
              · obtain ⟨h1, h2, _, _⟩ := hmain _ _ _ _ hcl hcr
                refine hfinish ?_
                rw [hdl, hdr, hop, h1, h2]
              · obtain ⟨h1, h2, _, _⟩ := hmain _ _ _ _ hcl hcr
                refine hfinish ?_
                rw [hdl, hdr, hop, h1, h2,
                  denoteBin_comm S (hop ▸ hcomm2) hcomm]
              · obtain ⟨h1, h2, _, _⟩ := hmain _ _ _ _ hcl hcr
                refine hfinish ?_
                rw [hdl, denoteBin_comm S hcomm1 hcomm, h1, h2, hdr, hop]
              · obtain ⟨h1, h2, _, _⟩ := hmain _ _ _ _ hcl hcr
                refine hfinish ?_
                rw [hdl, hdr, hop, denoteBin_comm S (hop ▸ hcomm1) hcomm, h1, h2,
                  denoteBin_comm S (hop ▸ hcomm1) hcomm]

/-- Soundness of `dedup.rs::equivalent` on a single vector: a successful
check means the two subtrees denote the same value. -/
lemma equivalent_denote (S : OpSem F) (nodes : List (Node F))
    (σ : Char → Option F)
    (htopo : ∀ k, k < nodes.length → childOK k (nodes.getD k defaultNode) = true)
    (hcomm : ∀ op : BinaryOp, op.isCommutative = true →
      ∀ a b : F, S.binary op a b = S.binary op b a)
    {i j : Nat} (hi : i < nodes.length) (hj : j < nodes.length)
    (heq : equivalent i j nodes nodes true = true) :
    denote S nodes σ i = denote S nodes σ j := by
  rw [equivalent] at heq
  have h := eqStacksF_denote S nodes σ htopo hcomm (3 ^ i + 3 ^ j + 2) [i] [j]
    (by intro x hx; simp at hx; omega)
    (by intro x hx; simp at hx; omega)
    (by rw [stackMeasure_cons, stackMeasure_cons, stackMeasure_nil]; omega)
    heq
  exact h.2 (i, j) (by rw [List.zip_cons_cons]; exact List.mem_cons_self _ _)

lemma hashNodes_length (hf : HashFns F) (nodes : List (Node F)) :
    (hashNodes hf nodes).length = nodes.length :=
  hashBufAux_length hf nodes nodes.length

lemma firstIdx_le {hashes : List Nat} {i : Nat} (hi : i < hashes.length) :
    firstIdx hashes i ≤ i := by
  rw [firstIdx]
  by_contra hc
  push_neg at hc
  have hno := List.not_of_lt_findIdx hc
  have hgd : hashes.getD i 0 = hashes[i] := by
    rw [List.getD_eq_getElem?_getD, List.getElem?_eq_getElem hi]
    rfl
  simp [hgd] at hno
  exact hno (by rw [List.getElem?_eq_getElem hi]; rfl)

lemma dedupIndices_length (hf : HashFns F) (nodes : List (Node F)) :
    (dedupIndices hf nodes).length = nodes.length := by
  simp [dedupIndices]

lemma dedupIndices_getD (hf : HashFns F) (nodes : List (Node F)) {j : Nat}
    (hj : j < nodes.length) :
    (dedupIndices hf nodes).getD j 0 =
      (if firstIdx (hashNodes hf nodes) j ≠ j ∧
          equivalent (firstIdx (hashNodes hf nodes) j) j nodes nodes true
        then firstIdx (hashNodes hf nodes) j else j) := by
  rw [dedupIndices, getD_map_of_lt _ _ _ (by simpa using hj) _ 0,
    getD_range_of_lt hj]

lemma dedupIndices_le (hf : HashFns F) (nodes : List (Node F)) {j : Nat}
    (hj : j < nodes.length) :
    (dedupIndices hf nodes).getD j 0 ≤ j := by
  rw [dedupIndices_getD hf nodes hj]
  split
  · exact firstIdx_le (by rw [hashNodes_length]; exact hj)
  · exact le_refl j

lemma dedupIndices_spec (hf : HashFns F) (nodes : List (Node F)) {j : Nat}
    (hj : j < nodes.length) :
    (dedupIndices hf nodes).getD j 0 = j ∨
    equivalent ((dedupIndices hf nodes).getD j 0) j nodes nodes true = true := by
  rw [dedupIndices_getD hf nodes hj]
  split
  · next h => exact Or.inr h.2
  · exact Or.inl rfl

lemma dedupRun_length (hf : HashFns F) (nodes : List (Node F)) :
    (dedupRun hf nodes).length = nodes.length := by
  simp [dedupRun]

lemma dedupRun_getD (hf : HashFns F) (nodes : List (Node F)) {k : Nat}
    (hk : k < nodes.length) :
    (dedupRun hf nodes).getD k defaultNode =
      (match nodes.getD k defaultNode with
        | .constant v => .constant v
        | .symbol c => .symbol c
        | .unary op i => .unary op ((dedupIndices hf nodes).getD i 0)
        | .binary op l r => .binary op ((dedupIndices hf nodes).getD l 0)
            ((dedupIndices hf nodes).getD r 0)) := by
  rw [dedupRun, getD_map_of_lt _ _ _ hk _ defaultNode]

lemma dedupRun_topo (hf : HashFns F) (nodes : List (Node F))
    (htopo : ∀ k, k < nodes.length → childOK k (nodes.getD k defaultNode) = true) :
    ∀ k, k < (dedupRun hf nodes).length →
      childOK k ((dedupRun hf nodes).getD k defaultNode) = true := by
  intro k hk
  rw [dedupRun_length] at hk
  rw [dedupRun_getD hf nodes hk]
  have hok := htopo k hk
  cases hnd : nodes.getD k defaultNode with
  | constant v => simp [childOK]
  | symbol c => simp [childOK]
  | unary op j =>
    rw [hnd, childOK_unary_iff] at hok
    rw [childOK_unary_iff]
    have := dedupIndices_le hf nodes (show j < nodes.length by omega)
    omega
  | binary op l r =>
    rw [hnd, childOK_binary_iff] at hok
    rw [childOK_binary_iff]
    have h1 := dedupIndices_le hf nodes (show l < nodes.length by omega)
    have h2 := dedupIndices_le hf nodes (show r < nodes.length by omega)
    omega

/-- Deduplication preserves the denotation of every node: every rewired
operand is either the node itself or a node the equivalence check proved
denotationally equal. -/
lemma denote_dedupRun (S : OpSem F) (hf : HashFns F) (nodes : List (Node F))
    (σ : Char → Option F)
    (htopo : ∀ k, k < nodes.length → childOK k (nodes.getD k defaultNode) = true)
    (hcomm : ∀ op : BinaryOp, op.isCommutative = true →
      ∀ a b : F, S.binary op a b = S.binary op b a) :
    ∀ k, k < nodes.length →
      denote S (dedupRun hf nodes) σ k = denote S nodes σ k := by
  intro k
  induction k using Nat.strong_induction_on with
  | _ k ih =>
    intro hk
    have hmerge : ∀ j, j < k →
        denote S nodes σ ((dedupIndices hf nodes).getD j 0) =
          denote S nodes σ j := by
      intro j hjk
      have hj : j < nodes.length := by omega
      rcases dedupIndices_spec hf nodes hj with hsame | hequiv
      · rw [hsame]
      · exact equivalent_denote S nodes σ htopo hcomm
          (by have := dedupIndices_le hf nodes hj; omega) hj hequiv
    have hok := htopo k hk
    cases hnd : nodes.getD k defaultNode with
    | constant v =>
      rw [denote_constant S σ (by rw [dedupRun_getD hf nodes hk, hnd]),
        denote_constant S σ hnd]
    | symbol c =>
      rw [denote_symbol S σ (by rw [dedupRun_getD hf nodes hk, hnd]),
        denote_symbol S σ hnd]
    | unary op j =>
      rw [hnd, childOK_unary_iff] at hok
      have hjle := dedupIndices_le hf nodes (show j < nodes.length by omega)
      rw [denote_unary S σ (by rw [dedupRun_getD hf nodes hk, hnd])
          (show (dedupIndices hf nodes).getD j 0 < k by omega),
        denote_unary S σ hnd hok,
        ih _ (by omega) (by omega), hmerge j hok]
    | binary op l r =>
      rw [hnd, childOK_binary_iff] at hok
      have hlle := dedupIndices_le hf nodes (show l < nodes.length by omega)
      have hrle := dedupIndices_le hf nodes (show r < nodes.length by omega)
      rw [denote_binary S σ (by rw [dedupRun_getD hf nodes hk, hnd])
          (show (dedupIndices hf nodes).getD l 0 < k by omega)
          (show (dedupIndices hf nodes).getD r 0 < k by omega),
        denote_binary S σ hnd hok.1 hok.2,
        ih _ (by omega) (by omega), ih _ (by omega) (by omega),
        hmerge l hok.1, hmerge r hok.2]

lemma walkFromF_self_mem (nodes : List (Node F)) (ord : NodeOrdering)
    {f : Nat} (i : Nat) (hf : 0 < f) : i ∈ walkFromF nodes ord f i := by
  cases f with
  | zero => omega
  | succ g => exact List.mem_cons_self _ _

lemma liveNode_iff {nodes : List (Node F)} {root j : Nat} :
    liveNode nodes root j = true ↔ j ∈ walkFrom nodes .original root := by
  rw [liveNode]
  exact List.elem_iff

lemma liveNode_self (nodes : List (Node F)) (root : Nat) :
    liveNode nodes root root = true :=
  liveNode_iff.mpr (walkFromF_self_mem nodes .original root (by omega))

lemma walkFromF_mem_le {nodes : List (Node F)} {ord : NodeOrdering}
    (htopo : ∀ k, k < nodes.length → childOK k (nodes.getD k defaultNode) = true) :
    ∀ (f i j : Nat), i < nodes.length → j ∈ walkFromF nodes ord f i → j ≤ i := by
  intro f
  induction f with
  | zero =>
    intro i j _ hj
    simp [walkFromF] at hj
  | succ g ih =>
    intro i j hi hj
    rw [walkFromF] at hj
    rcases List.mem_cons.mp hj with hj | hj
    · omega
    · obtain ⟨lst, hlst, hjl⟩ := List.mem_flatten.mp hj
      obtain ⟨c, hc, rfl⟩ := List.mem_map.mp hlst
      have hci : c < i := childrenVisit_lt (htopo i hi) c hc
      have := ih c j (by omega) hjl
      omega

lemma walkFromF_closed {nodes : List (Node F)} {ord : NodeOrdering}
    (htopo : ∀ k, k < nodes.length → childOK k (nodes.getD k defaultNode) = true) :
    ∀ (f i : Nat), i < nodes.length → i + 1 ≤ f →
      ∀ j, j ∈ walkFromF nodes ord f i →
      ∀ c, c ∈ childrenVisit nodes ord j → c ∈ walkFromF nodes ord f i := by
  intro f
  induction f with
  | zero => intro i _ hf; omega
  | succ g ih =>
    intro i hi hf j hj c hc
    rw [walkFromF] at hj
    rw [walkFromF]
    rcases List.mem_cons.mp hj with hj | hj
    · rw [hj] at hc
      have hci : c < i := childrenVisit_lt (htopo i hi) c hc
      refine List.mem_cons_of_mem _ (List.mem_flatten.mpr
        ⟨walkFromF nodes ord g c, List.mem_map.mpr ⟨c, hc, rfl⟩, ?_⟩)
      exact walkFromF_self_mem nodes ord c (by omega)
    · obtain ⟨lst, hlst, hjl⟩ := List.mem_flatten.mp hj
      obtain ⟨c2, hc2, rfl⟩ := List.mem_map.mp hlst
      have hc2i : c2 < i := childrenVisit_lt (htopo i hi) c2 hc2
      refine List.mem_cons_of_mem _ (List.mem_flatten.mpr
        ⟨walkFromF nodes ord g c2, List.mem_map.mpr ⟨c2, hc2, rfl⟩, ?_⟩)
      exact ih c2 (by omega) (by omega) j hjl c hc

lemma liveNode_closed {nodes : List (Node F)} {root : Nat}
    (htopo : ∀ k, k < nodes.length → childOK k (nodes.getD k defaultNode) = true)
    (hroot : root < nodes.length) {j c : Nat}
    (hlive : liveNode nodes root j = true)
    (hc : c ∈ childrenVisit nodes .original j) :
    liveNode nodes root c = true := by
  rw [liveNode_iff] at hlive ⊢
  exact walkFromF_closed htopo (root + 1) root hroot (le_refl _) j hlive c hc

lemma countP_range_mono (p : Nat → Bool) {a b : Nat} (h : a ≤ b) :
    (List.range a).countP p ≤ (List.range b).countP p := by
  induction b with
  | zero =>
    have ha : a = 0 := by omega
    subst ha
    exact le_refl _
  | succ b ihb =>
    rcases Nat.lt_or_ge a (b + 1) with h1 | h1
    · have := ihb (by omega)
      rw [List.range_succ, List.countP_append]
      omega
    · have ha : a = b + 1 := by omega
      rw [ha]

lemma newIndex_lt {nodes : List (Node F)} {root c j : Nat} (hcj : c < j)
    (hlc : liveNode nodes root c = true) :
    newIndex nodes root c < newIndex nodes root j := by
  have h1 := countP_range_mono (liveNode nodes root) (show c + 1 ≤ j by omega)
  rw [List.range_succ, List.countP_append] at h1
  have h2 : List.countP (liveNode nodes root) [c] = 1 := by simp [hlc]
  rw [newIndex, newIndex]
  omega

lemma filter_range_getD (p : Nat → Bool) :
    ∀ (n j : Nat), j < n → p j = true →
      ((List.range n).filter p).getD ((List.range j).countP p) 0 = j := by
  intro n
  induction n with
  | zero => intro j hj _; omega
  | succ n ihn =>
    intro j hj hp
    rw [List.range_succ, List.filter_append]
    by_cases hjn : j < n
    · have hlt : (List.range j).countP p < ((List.range n).filter p).length := by
        rw [← List.countP_eq_length_filter]
        have hmono := countP_range_mono p (show j + 1 ≤ n by omega)
        rw [List.range_succ, List.countP_append] at hmono
        have hone : List.countP p [j] = 1 := by simp [hp]
        omega
      rw [List.getD_append _ _ _ _ hlt]
      exact ihn j hjn hp
    · have hjeq : j = n := by omega
      subst hjeq
      have hlen : ((List.range j).filter p).length = (List.range j).countP p := by
        rw [← List.countP_eq_length_filter]
      rw [List.getD_append_right _ _ _ _ (by omega)]
      rw [hlen, Nat.sub_self]
      simp [List.filter, hp]

lemma newIndex_lt_filter_length {nodes : List (Node F)} {root j : Nat}
    (hj : j < nodes.length) (hl : liveNode nodes root j = true) :
    newIndex nodes root j <
      ((List.range nodes.length).filter (liveNode nodes root)).length := by
  rw [← List.countP_eq_length_filter]
  have hmono := countP_range_mono (liveNode nodes root)
    (show j + 1 ≤ nodes.length by omega)
  rw [List.range_succ, List.countP_append] at hmono
  have hone : List.countP (liveNode nodes root) [j] = 1 := by simp [hl]
  rw [newIndex]
  omega

lemma trimNodes_length (nodes : List (Node F)) (root : Nat) :
    (trimNodes nodes root).length =
      (List.range nodes.length).countP (liveNode nodes root) := by
  simp [trimNodes, List.countP_eq_length_filter]

lemma trimNodes_getD_newIndex {nodes : List (Node F)} {root j : Nat}
    (hj : j < nodes.length) (hl : liveNode nodes root j = true) :
    (trimNodes nodes root).getD (newIndex nodes root j) defaultNode =
      remapNode nodes root (nodes.getD j defaultNode) := by
  rw [trimNodes, getD_map_of_lt _ _ _ (newIndex_lt_filter_length hj hl) _ 0]
  rw [show newIndex nodes root j = (List.range j).countP (liveNode nodes root)
    from rfl]
  rw [filter_range_getD _ _ _ hj hl]

lemma trimNodes_index_surj {nodes : List (Node F)} {root : Nat} {p : Nat}
    (hp : p < (trimNodes nodes root).length) :
    ∃ j, j < nodes.length ∧ liveNode nodes root j = true ∧
      newIndex nodes root j = p := by
  have hpk : p < ((List.range nodes.length).filter (liveNode nodes root)).length := by
    rw [trimNodes_length, List.countP_eq_length_filter] at hp
    exact hp
  set kl := (List.range nodes.length).filter (liveNode nodes root) with hkl
  have hjmem : kl[p] ∈ kl := List.getElem_mem hpk
  have hmemf := List.mem_filter.mp hjmem
  have hjn : kl[p] < nodes.length := List.mem_range.mp hmemf.1
  have hjl : liveNode nodes root kl[p] = true := hmemf.2
  refine ⟨kl[p], hjn, hjl, ?_⟩
  have hnodup : kl.Nodup := (List.nodup_range nodes.length).filter _
  have hgd := filter_range_getD (liveNode nodes root) nodes.length kl[p] hjn hjl
  have hidx : newIndex nodes root kl[p] < kl.length :=
    newIndex_lt_filter_length hjn hjl
  have hgd2 : kl.get ⟨newIndex nodes root kl[p], hidx⟩ = kl[p] := by
    have hh : kl.getD (newIndex nodes root kl[p]) 0 =
        kl.get ⟨newIndex nodes root kl[p], hidx⟩ := by
      rw [List.getD_eq_getElem?_getD, List.getElem?_eq_getElem hidx]
      rfl
    rw [← hh]
    exact hgd
  exact (hnodup.getElem_inj_iff).mp hgd2

lemma trimNodes_topo {nodes : List (Node F)} {root : Nat}
    (htopo : ∀ k, k < nodes.length → childOK k (nodes.getD k defaultNode) = true)
    (hroot : root < nodes.length) :
    ∀ p, p < (trimNodes nodes root).length →
      childOK p ((trimNodes nodes root).getD p defaultNode) = true := by
  intro p hp
  obtain ⟨j, hj, hl, rfl⟩ := trimNodes_index_surj hp
  rw [trimNodes_getD_newIndex hj hl]
  have hok := htopo j hj
  cases hnd : nodes.getD j defaultNode with
  | constant v => simp [remapNode, childOK]
  | symbol c => simp [remapNode, childOK]
  | unary op c =>
    rw [hnd, childOK_unary_iff] at hok
    have hcl : liveNode nodes root c = true :=
      liveNode_closed htopo hroot hl (by simp only [childrenVisit, hnd]; simp)
    rw [remapNode, childOK_unary_iff]
    exact newIndex_lt hok hcl
  | binary op l r =>
    rw [hnd, childOK_binary_iff] at hok
    have hll : liveNode nodes root l = true :=
      liveNode_closed htopo hroot hl (by simp only [childrenVisit, hnd]; simp)
    have hlr : liveNode nodes root r = true :=
      liveNode_closed htopo hroot hl (by simp only [childrenVisit, hnd]; simp)
    rw [remapNode, childOK_binary_iff]
    exact ⟨newIndex_lt hok.1 hll, newIndex_lt hok.2 hlr⟩

/-- Trimming preserves the denotation of every live node at its new index. -/
lemma denote_trimNodes (S : OpSem F) (σ : Char → Option F)
    {nodes : List (Node F)} {root : Nat}
    (htopo : ∀ k, k < nodes.length → childOK k (nodes.getD k defaultNode) = true)
    (hroot : root < nodes.length) :
    ∀ j, j < nodes.length → liveNode nodes root j = true →
      denote S (trimNodes nodes root) σ (newIndex nodes root j) =
        denote S nodes σ j := by
  intro j
  induction j using Nat.strong_induction_on with
  | _ j ih =>
    intro hj hl
    have hok := htopo j hj
    cases hnd : nodes.getD j defaultNode with
    | constant v =>
      rw [denote_constant S σ (by rw [trimNodes_getD_newIndex hj hl, hnd]; rfl),
        denote_constant S σ hnd]
    | symbol c =>
      rw [denote_symbol S σ (by rw [trimNodes_getD_newIndex hj hl, hnd]; rfl),
        denote_symbol S σ hnd]
    | unary op c =>
      rw [hnd, childOK_unary_iff] at hok
      have hcl : liveNode nodes root c = true :=
        liveNode_closed htopo hroot hl (by simp only [childrenVisit, hnd]; simp)
      rw [denote_unary S σ (by rw [trimNodes_getD_newIndex hj hl, hnd]; rfl)
          (newIndex_lt hok hcl),
        denote_unary S σ hnd hok, ih c (by omega) (by omega) hcl]
    | binary op l r =>
      rw [hnd, childOK_binary_iff] at hok
      have hll : liveNode nodes root l = true :=
        liveNode_closed htopo hroot hl (by simp only [childrenVisit, hnd]; simp)
      have hlr : liveNode nodes root r = true :=
        liveNode_closed htopo hroot hl (by simp only [childrenVisit, hnd]; simp)
      rw [denote_binary S σ (by rw [trimNodes_getD_newIndex hj hl, hnd]; rfl)
          (newIndex_lt hok.1 hll) (newIndex_lt hok.2 hlr),
        denote_binary S σ hnd hok.1 hok.2,
        ih l (by omega) (by omega) hll, ih r (by omega) (by omega) hlr]

lemma trimNodes_root_length {nodes : List (Node F)} {root : Nat}
    (hroot : root = nodes.length - 1) (hpos : 0 < nodes.length) :
    (trimNodes nodes root).length = newIndex nodes root root + 1 := by
  rw [trimNodes_length, newIndex]
  have hn : nodes.length = root + 1 := by omega
  rw [hn, List.range_succ, List.countP_append]
  have hone : List.countP (liveNode nodes root) [root] = 1 := by
    simp [liveNode_self]
  omega

lemma deduplicate_eq_trim (hf : HashFns F) (nodes : List (Node F)) :
    deduplicate hf nodes = trimNodes (dedupRun hf nodes) (rootIndex nodes) := by
  simp [deduplicate, trimRun, trimmerNew]

/-- Claim C1: for every tree satisfying the global invariants and every
binding σ, if evaluating the tree and evaluating its deduplicated-and-trimmed
version both return a value, the two values are equal.  (The operator
semantics is abstract; the hypothesis `hcomm` records that the commutative
operators' scalar interpretations really are commutative, as IEEE `+`, `*`,
`min`, `max` are on the values a NaN-free evaluation produces.) -/
theorem c1_deduplicate_preserves_eval (S : OpSem F) (hf : HashFns F)
    (nodes : List (Node F)) (σ : Char → Option F) (v1 v2 : F)
    (hval : isValid nodes = true)
    (hcomm : ∀ op : BinaryOp, op.isCommutative = true →
      ∀ a b : F, S.binary op a b = S.binary op b a)
    (h1 : runEval S nodes (initRegs nodes σ) = .ok v1)
    (h2 : runEval S (deduplicate hf nodes)
      (initRegs (deduplicate hf nodes) σ) = .ok v2) :
    v1 = v2 := by
  obtain ⟨hpos, htopo⟩ := isValid_iff.mp hval
  have hlen2 : (dedupRun hf nodes).length = nodes.length := dedupRun_length hf nodes
  have htopo2 : ∀ k, k < (dedupRun hf nodes).length →
      childOK k ((dedupRun hf nodes).getD k defaultNode) = true :=
    dedupRun_topo hf nodes htopo
  have hroot2 : rootIndex nodes < (dedupRun hf nodes).length := by
    rw [hlen2, rootIndex]
    omega
  have hrooteq : rootIndex nodes = (dedupRun hf nodes).length - 1 := by
    rw [hlen2, rootIndex]
  have htrlen := trimNodes_root_length hrooteq (by omega)
  have hvalid_trim : isValid (trimNodes (dedupRun hf nodes) (rootIndex nodes)) = true := by
    rw [isValid_iff]
    exact ⟨by rw [htrlen]; omega, trimNodes_topo htopo2 hroot2⟩
  have hd1 := runEval_ok_denote S nodes σ v1 hval h1
  rw [deduplicate_eq_trim hf nodes] at h2
  have hd2 := runEval_ok_denote S _ σ v2 hvalid_trim h2
  have hri : rootIndex (trimNodes (dedupRun hf nodes) (rootIndex nodes)) =
      newIndex (dedupRun hf nodes) (rootIndex nodes) (rootIndex nodes) := by
    rw [rootIndex, htrlen]
    omega
  rw [hri, denote_trimNodes S σ htopo2 hroot2 (rootIndex nodes) hroot2
      (liveNode_self _ _),
    denote_dedupRun S hf nodes σ htopo hcomm (rootIndex nodes)
      (by rw [rootIndex]; omega), hd1] at hd2
  exact Option.some.inj hd2

/-- Claim C1 witness: `x*y + y*x` over `Int`, where deduplication merges the
two commutative mirror products and trimming removes the dead nodes; both
evaluations at `x = 3, y = 5` return 30. -/
theorem c1_deduplicate_preserves_eval_witness :
    isValid ([Node.symbol 'x', Node.symbol 'y', Node.binary .multiply 0 1,
      Node.symbol 'y', Node.symbol 'x', Node.binary .multiply 3 4,
      Node.binary .add 2 5] : List (Node Int)) = true ∧
    runEval intSem [Node.symbol 'x', Node.symbol 'y', Node.binary .multiply 0 1,
      Node.symbol 'y', Node.symbol 'x', Node.binary .multiply 3 4,
      Node.binary .add 2 5]
      (initRegs [Node.symbol 'x', Node.symbol 'y', Node.binary .multiply 0 1,
        Node.symbol 'y', Node.symbol 'x', Node.binary .multiply 3 4,
        Node.binary .add 2 5]
        (fun c => if c = 'x' then some 3 else if c = 'y' then some 5 else none)) =
      .ok 30 ∧
    runEval intSem
      (deduplicate intHash [Node.symbol 'x', Node.symbol 'y',
        Node.binary .multiply 0 1, Node.symbol 'y', Node.symbol 'x',
        Node.binary .multiply 3 4, Node.binary .add 2 5])
      (initRegs (deduplicate intHash [Node.symbol 'x', Node.symbol 'y',
        Node.binary .multiply 0 1, Node.symbol 'y', Node.symbol 'x',
        Node.binary .multiply 3 4, Node.binary .add 2 5])
        (fun c => if c = 'x' then some 3 else if c = 'y' then some 5 else none)) =
      .ok 30 ∧
    (30 : Int) = 30 := by
  refine ⟨by decide, by rfl, by rfl, ?_⟩
  exact c1_deduplicate_preserves_eval intSem intHash
    [Node.symbol 'x', Node.symbol 'y', Node.binary .multiply 0 1,
      Node.symbol 'y', Node.symbol 'x', Node.binary .multiply 3 4,
      Node.binary .add 2 5]
    (fun c => if c = 'x' then some 3 else if c = 'y' then some 5 else none)
    30 30 (by decide)
    (by
      intro op hop a b
      cases op <;> simp [intSem, intBinary, BinaryOp.isCommutative] at hop ⊢ <;>
        first
          | exact Int.add_comm a b
          | exact Int.mul_comm a b
          | exact min_comm a b
          | exact max_comm a b)
    (by rfl) (by rfl)

end Asg
